import Mathlib

/-!
Verification of the HelenOS UTF-8 string core (src/common/str.c).

The C code is shallowly embedded over `Nat`:
  - a byte buffer is a `List Nat` of values < 256 (bytes are read through
    `uint8_t`, i.e. unsigned, as stated in the file's terminology table);
  - `char32_t` values and `size_t` offsets/sizes are `Nat`;
  - the `mbstate_t.state` field is 16 bits wide (str.c comments this
    explicitly), so assignments that can exceed 16 bits reduce mod 65536;
  - buffer reads use `List.getD` with default 0; all theorems either bound
    the accessed indices or assume the byte-range invariant;
  - fallible functions return an explicit error-code value.

Functions keep their C names.  Loops are rendered as structural recursion:
a C loop bounded by `offset < size` becomes recursion on the remaining
byte budget `size - offset`, which the C loop counter mirrors exactly.
-/

/-- Error codes used by the string functions (from errno.h, modelled as an
enumeration; only the codes str.c returns are needed). -/
inductive Errno where
  | EOK
  | EOVERFLOW
  | EINVAL
deriving DecidableEq, Repr

/-- Byte mask consisting of lowest n bits (out of 8): LO_MASK_8 in str.c. -/
def LO_MASK_8 (n : Nat) : Nat := (1 <<< n) - 1

/-- Byte mask consisting of lowest n bits (out of 32): LO_MASK_32 in str.c. -/
def LO_MASK_32 (n : Nat) : Nat := (1 <<< n) - 1

/-- Bitwise complement on a uint32_t operand, as produced by C `~` applied
to a LO_MASK_32 value. -/
def NOT32 (x : Nat) : Nat := 0xFFFFFFFF ^^^ x

/-- Byte mask consisting of highest n bits (out of 8): HI_MASK_8 in str.c,
`~LO_MASK_8(8 - n)` truncated to the 8-bit value actually stored. -/
def HI_MASK_8 (n : Nat) : Nat := 0xFF ^^^ LO_MASK_8 (8 - n)

/-- Number of data bits in a UTF-8 continuation byte (CONT_BITS in str.c). -/
def CONT_BITS : Nat := 6

def UTF8_MASK_INITIAL2 : Nat := 0b00011111
def UTF8_MASK_INITIAL3 : Nat := 0b00001111
def UTF8_MASK_INITIAL4 : Nat := 0b00000111
def UTF8_MASK_CONT : Nat := 0b00111111

/-- CHAR_INVALID in str.c: `(char32_t) UINT_MAX`. -/
def CHAR_INVALID : Nat := 4294967295

/-- Modelled from the spec: U_SPECIAL, the replacement character substituted
for invalid sequences.  Its definition lives in str.h, which is not part of
the excerpt; the spec only requires a sentinel that is itself a valid
(printable ASCII) character, which is the question mark. -/
def U_SPECIAL : Nat := 0x3F

/-- Modelled from the spec: STR_NO_LIMIT, the dedicated "no limit" sentinel
for size arguments (str.h is not in the excerpt).  It is the maximal
`size_t` value on a 64-bit target. -/
def STR_NO_LIMIT : Nat := 18446744073709551615

def _is_ascii (b : Nat) : Bool := b < 0x80

def _is_continuation (b : Nat) : Bool := b &&& 0xC0 == 0x80

def _is_2_byte (c : Nat) : Bool := c &&& 0xE0 == 0xC0

def _is_3_byte (c : Nat) : Bool := c &&& 0xF0 == 0xE0

def _is_4_byte (c : Nat) : Bool := c &&& 0xF8 == 0xF0

/-- _char_continuation_bytes in str.c (the -1 case means unsupported). -/
def _char_continuation_bytes (c : Nat) : Int :=
  if c &&& NOT32 (LO_MASK_32 7) == 0 then 0
  else if c &&& NOT32 (LO_MASK_32 11) == 0 then 1
  else if c &&& NOT32 (LO_MASK_32 16) == 0 then 2
  else if c &&& NOT32 (LO_MASK_32 21) == 0 then 3
  else -1

/-- _continuation_bytes in str.c. -/
def _continuation_bytes (b : Nat) : Int :=
  if _is_ascii b then 0
  else if _is_2_byte b then 1
  else if _is_3_byte b then 2
  else if _is_4_byte b then 3
  else -1

/-- _is_non_shortest in str.c (state is the 16-bit mbstate_t field). -/
def _is_non_shortest (state b : Nat) : Bool :=
  (state == 0b1111110000000000 && !(b &&& 0b00100000 != 0)) ||
    (state == 0b1111111111110000 && !(b &&& 0b00110000 != 0))

/-- _is_surrogate in str.c. -/
def _is_surrogate (state b : Nat) : Bool :=
  state == 0b1111110000001101 && b ≥ 0xa0

/-- The trailing `for (; *offset < size; (*offset)++)` loop of _str_decode,
which consumes continuation bytes one at a time.  The C loop runs while
`offset < size`; here `gas` carries `size - offset`, so `gas = 0` is the
loop exit (the incomplete-character return at the end of _str_decode).
Result is (returned char32_t, final offset, final mbstate_t state).
The 16-bit state field truncates the shifted-in value mod 65536. -/
def _decode_cont_loop (s : List Nat) : Nat → Nat → Nat → Nat × Nat × Nat
  | 0, offset, state => (0, offset, state)
  | gas + 1, offset, state =>
    if !_is_continuation (s.getD offset 0) || _is_non_shortest state (s.getD offset 0) ||
        _is_surrogate state (s.getD offset 0) then
      (CHAR_INVALID, offset, 0)
    else if state &&& 0x8000 == 0 then
      (state <<< 6 ||| (s.getD offset 0 &&& UTF8_MASK_CONT), offset + 1, 0)
    else
      _decode_cont_loop s gas (offset + 1)
        ((state <<< 6 ||| (s.getD offset 0 &&& UTF8_MASK_CONT)) % 65536)

/-- The combined character value computed inside _str_decode's 2-byte
fast path (local ch in str.c). -/
def _utf8_char2 (b c1 : Nat) : Nat :=
  (b &&& UTF8_MASK_INITIAL2) <<< 6 ||| (c1 &&& UTF8_MASK_CONT)

/-- The combined character value of _str_decode's 3-byte fast path. -/
def _utf8_char3 (b c1 c2 : Nat) : Nat :=
  (b &&& UTF8_MASK_INITIAL3) <<< 12 ||| (c1 &&& UTF8_MASK_CONT) <<< 6 ||| (c2 &&& UTF8_MASK_CONT)

/-- The combined character value of _str_decode's 4-byte fast path. -/
def _utf8_char4 (b c1 c2 c3 : Nat) : Nat :=
  (b &&& UTF8_MASK_INITIAL4) <<< 18 ||| (c1 &&& UTF8_MASK_CONT) <<< 12 |||
    (c2 &&& UTF8_MASK_CONT) <<< 6 ||| (c3 &&& UTF8_MASK_CONT)

/-- _str_decode in str.c (FAST_PATHS enabled, as compiled).  Takes the
buffer, the cursor, the size limit and the mbstate_t state; returns
(char32_t result, new cursor, new state). -/
def _str_decode (s : List Nat) (offset size state : Nat) : Nat × Nat × Nat :=
  if offset == size then (0, offset, state)
  else if state == 0 then
    if _is_ascii (s.getD offset 0) then (s.getD offset 0, offset + 1, 0)
    else if _is_continuation (s.getD offset 0) then (CHAR_INVALID, offset + 1, 0)
    else if _is_2_byte (s.getD offset 0) then
      if s.getD offset 0 &&& 0b00011110 == 0 then (CHAR_INVALID, offset + 1, 0)
      else if offset + 1 < size && _is_continuation (s.getD (offset + 1) 0) then
        (_utf8_char2 (s.getD offset 0) (s.getD (offset + 1) 0), offset + 2, 0)
      else
        _decode_cont_loop s (size - (offset + 1)) (offset + 1)
          (s.getD offset 0 ^^^ 0b0000000011000000)
    else if _is_3_byte (s.getD offset 0) then
      if offset + 2 < size && _is_continuation (s.getD (offset + 1) 0) &&
          _is_continuation (s.getD (offset + 2) 0) then
        if _utf8_char3 (s.getD offset 0) (s.getD (offset + 1) 0) (s.getD (offset + 2) 0) &&&
            0xFFFFF800 == 0 then (CHAR_INVALID, offset + 3, 0)
        else if _utf8_char3 (s.getD offset 0) (s.getD (offset + 1) 0) (s.getD (offset + 2) 0)
            ≥ 0xD800 &&
            _utf8_char3 (s.getD offset 0) (s.getD (offset + 1) 0) (s.getD (offset + 2) 0)
            < 0xE000 then (CHAR_INVALID, offset + 3, 0)
        else (_utf8_char3 (s.getD offset 0) (s.getD (offset + 1) 0) (s.getD (offset + 2) 0),
          offset + 3, 0)
      else
        _decode_cont_loop s (size - (offset + 1)) (offset + 1)
          (s.getD offset 0 ^^^ 0b1111110011100000)
    else if _is_4_byte (s.getD offset 0) then
      if offset + 3 < size && _is_continuation (s.getD (offset + 1) 0) &&
          _is_continuation (s.getD (offset + 2) 0) &&
          _is_continuation (s.getD (offset + 3) 0) then
        if _utf8_char4 (s.getD offset 0) (s.getD (offset + 1) 0) (s.getD (offset + 2) 0)
            (s.getD (offset + 3) 0) &&& 0xFFFF0000 == 0 then (CHAR_INVALID, offset + 4, 0)
        else if _utf8_char4 (s.getD offset 0) (s.getD (offset + 1) 0) (s.getD (offset + 2) 0)
            (s.getD (offset + 3) 0) ≥ 0x110000 then (CHAR_INVALID, offset + 4, 0)
        else (_utf8_char4 (s.getD offset 0) (s.getD (offset + 1) 0) (s.getD (offset + 2) 0)
          (s.getD (offset + 3) 0), offset + 4, 0)
      else
        _decode_cont_loop s (size - (offset + 1)) (offset + 1)
          (s.getD offset 0 ^^^ 0b1111111100000000)
    else (CHAR_INVALID, offset + 1, 0)
  else
    _decode_cont_loop s (size - offset) offset state

/-- str_decode in str.c: one-shot decode from a clean state; folds both
invalid and incomplete sequences into U_SPECIAL.
Returns (char32_t result, new cursor). -/
def str_decode (s : List Nat) (offset size : Nat) : Nat × Nat :=
  if (_str_decode s offset size 0).1 == CHAR_INVALID ∨ (_str_decode s offset size 0).2.2 ≠ 0 then
    (U_SPECIAL, (_str_decode s offset size 0).2.1)
  else ((_str_decode s offset size 0).1, (_str_decode s offset size 0).2.1)

/-- chr_check in str.c. -/
def chr_check (ch : Nat) : Bool := ch ≤ 1114111

/-- The continuation-byte-emitting loop of chr_encode
(`for (i = cbytes; i > 0; i--)`), writing bytes at descending indices
offset+i and shifting ch right by CONT_BITS each step.
Returns the updated buffer and the remaining ch bits. -/
def _encode_cont (str : List Nat) (offset : Nat) : Nat → Nat → List Nat × Nat
  | ch, 0 => (str, ch)
  | ch, i + 1 =>
    _encode_cont (str.set (offset + (i + 1)) (0x80 ||| (ch &&& LO_MASK_32 CONT_BITS)))
      offset (ch >>> CONT_BITS) i

/-- chr_encode in str.c.  Returns (error code, buffer, new offset);
byte stores truncate to 8 bits, which the emitted values already satisfy. -/
def chr_encode (ch : Nat) (str : List Nat) (offset size : Nat) : Errno × List Nat × Nat :=
  if offset ≥ size then (.EOVERFLOW, str, offset)
  else if ch < 0x80 then (.EOK, str.set offset ch, offset + 1)
  else if !chr_check ch then (.EINVAL, str, offset)
  else if offset + (_char_continuation_bytes ch).toNat ≥ size then (.EOVERFLOW, str, offset)
  else
    (.EOK,
      (_encode_cont str offset ch (_char_continuation_bytes ch).toNat).1.set offset
        (((_encode_cont str offset ch (_char_continuation_bytes ch).toNat).2 &&&
            LO_MASK_32 (6 - (_char_continuation_bytes ch).toNat)) |||
          HI_MASK_8 (8 - (6 - (_char_continuation_bytes ch).toNat) - 1)),
      offset + (_char_continuation_bytes ch).toNat + 1)

/-- The value a byte reads as when stored in a plain `char`.  str_cmp
compares `*s1 < *s2` on plain char with no uint8_t cast (unlike the
decoder and the sanitizer, which cast deliberately), and char is signed
on the platforms this file targets: spascii_to_str in the same file
detects non-ASCII bytes by `dest[i] < 0`, a test that is unreachable
with an unsigned char.  So bytes 0x80..0xFF compare as the negative
values b - 256. -/
def signedChar (b : Nat) : Int := if b < 0x80 then (b : Int) else (b : Int) - 256

/-- str_cmp in str.c: byte-wise comparison of two NUL-terminated strings.
A C string is modelled as the list of its bytes; reading past the end of
the list yields the NUL terminator (an interior 0 byte likewise acts as
the terminator, exactly as in C).  Equality of two chars is equality of
their byte patterns, but the final `<` is a signed plain-char
comparison. -/
def str_cmp : List Nat → List Nat → Int
  | a :: s1, s2 =>
    let b := s2.headD 0
    if a == b then (if a == 0 then 0 else str_cmp s1 s2.tail)
    else if signedChar a < signedChar b then -1 else 1
  | [], s2 =>
    let b := s2.headD 0
    if 0 == b then 0 else if signedChar 0 < signedChar b then -1 else 1

/-- The continuation-byte check loop inside _str_sanitize
(`for (int i = 1; i <= cont; i++)`): bytes 1..cont of the current window
must all be continuation bytes. -/
def _conts_valid (l : List Nat) : Nat → Bool
  | 0 => true
  | i + 1 => _conts_valid l i && _is_continuation (l.getD (i + 1) 0)

/-- The six malformed-window checks of _str_sanitize (non-shortest forms,
surrogates, values above 0x10FFFF), in the order the C code tests them.
In str.c each check has the identical replacement body; here they are
gathered into one disjunction. -/
def _is_bad_window (cont : Int) (b b1 : Nat) : Bool :=
  (cont == 1 && b &&& 0b00011110 == 0) ||
  (cont == 1 && (b == 0b11000010 && b1 < 0b10100000)) ||
  (cont == 2 && b &&& 0b00001111 == 0 && b1 &&& 0b00100000 == 0) ||
  (cont == 3 && b &&& 0b00000111 == 0 && b1 &&& 0b00110000 == 0) ||
  (cont == 2 && b == 0xED && b1 ≥ 0xA0) ||
  (cont == 3 && (b > 0xF4 || (b == 0xF4 && b1 ≥ 0x90)))

/-- _str_sanitize in str.c: replaces in place every byte that is not part
of a complete valid character (and every C0 control byte) with repl;
returns (replacement count, new buffer).  The C routine advances a pointer
through the buffer; the already-walked prefix is rebuilt around each
recursive call.  All C branches that replace the current byte share one
body (`*b = repl; replacements++; continue`), so their conditions are
gathered into a single disjunction: C0 control, negative classification,
too few remaining bytes (`n <= cont`), a non-continuation byte inside the
window, or one of the six _is_bad_window checks; for an ASCII byte the
last four disjuncts are identically false, so the merged test keeps the C
evaluation order.  The final match arm is unreachable, because
_conts_valid has certified that cont continuation bytes are present. -/
def _str_sanitize (repl : Nat) : List Nat → Nat → Nat × List Nat
  | [], _ => (0, [])
  | b :: rest, n =>
    if n == 0 || b == 0 then (0, b :: rest)
    else if b < 0x20 || _continuation_bytes b < 0 || (n : Int) ≤ _continuation_bytes b ||
        !_conts_valid (b :: rest) (_continuation_bytes b).toNat ||
        _is_bad_window (_continuation_bytes b) b (rest.getD 0 0) then
      let r := _str_sanitize repl rest (n - 1)
      (r.1 + 1, repl :: r.2)
    else if _continuation_bytes b == 0 then
      let r := _str_sanitize repl rest (n - 1)
      (r.1, b :: r.2)
    else
      match (_continuation_bytes b).toNat, rest with
      | 1, c1 :: r1 =>
        let s := _str_sanitize repl r1 (n - 2)
        (s.1, b :: c1 :: s.2)
      | 2, c1 :: c2 :: r1 =>
        let s := _str_sanitize repl r1 (n - 3)
        (s.1, b :: c1 :: c2 :: s.2)
      | 3, c1 :: c2 :: c3 :: r1 =>
        let s := _str_sanitize repl r1 (n - 4)
        (s.1, b :: c1 :: c2 :: c3 :: s.2)
      | _, _ => (0, b :: rest)

/-- str_sanitize in str.c (argument order of the C function). -/
def str_sanitize (str : List Nat) (n : Nat) (repl : Nat) : Nat × List Nat :=
  _str_sanitize repl str n

/-- _str_cpy in str.c: unbounded byte copy up to and including the NUL
terminator.  dest keeps its bytes past the written region, modelling the
same memory; a dest list too short for a write models the out-of-bounds
case and drops the excess. -/
def _str_cpy : List Nat → List Nat → List Nat
  | d, [] => d.set 0 0
  | [], _ :: _ => []
  | _ :: dt, b :: s => if b == 0 then 0 :: dt else b :: _str_cpy dt s

/-- The copy loop of _str_cpyn (`while (*src && dest < dest_top)`):
budget carries dest_top - dest, the number of bytes that may still be
copied before the mandatory terminator. -/
def _cpyn_loop : List Nat → List Nat → Nat → List Nat
  | d, _, 0 => d.set 0 0
  | d, [], _ + 1 => d.set 0 0
  | d, b :: s, budget + 1 =>
    if b == 0 then d.set 0 0
    else
      match d with
      | [] => []
      | _ :: dt => b :: _cpyn_loop dt s budget

/-- _str_cpyn in str.c (the `!size` early return keeps dest untouched). -/
def _str_cpyn (dest : List Nat) (size : Nat) (src : List Nat) : List Nat :=
  if size == 0 then dest
  else if size == STR_NO_LIMIT then _str_cpy dest src
  else _cpyn_loop dest src (size - 1)

/-- str_cpy in str.c: bounded copy, then in-place sanitization with
U_SPECIAL over the destination. -/
def str_cpy (dest : List Nat) (size : Nat) (src : List Nat) : List Nat :=
  (_str_sanitize U_SPECIAL (_str_cpyn dest size src) size).2

/-- The conversion loop of str_to_utf16.  gas bounds the iteration count:
idx grows by at least one per iteration and the C loop exits once idx
reaches dlen - 1, so dlen iterations are never reached and the gas-0 arm
is unreachable.  uint16_t stores truncate mod 65536. -/
def _str_to_utf16_loop (src : List Nat) (dlen : Nat) : Nat → List Nat → Nat → Nat → Errno × List Nat
  | 0, dest, _, idx => (.EOK, dest.set idx 0)
  | gas + 1, dest, offset, idx =>
    let r := str_decode src offset STR_NO_LIMIT
    if r.1 == 0 then (.EOK, dest.set idx 0)
    else if r.1 > 0x10000 then
      if idx + 2 ≥ dlen - 1 then (.EOVERFLOW, dest.set idx 0)
      else
        let c := r.1 - 0x10000
        let dest1 := (dest.set idx (0xD800 ||| (c >>> 10))).set (idx + 1) (0xDC00 ||| (c &&& 0x3FF))
        let idx1 := idx + 2
        if idx1 ≥ dlen - 1 then (.EOVERFLOW, dest1.set idx1 0)
        else _str_to_utf16_loop src dlen gas dest1 r.2 idx1
    else
      let dest1 := dest.set idx (r.1 % 65536)
      let idx1 := idx + 1
      if idx1 ≥ dlen - 1 then (.EOVERFLOW, dest1.set idx1 0)
      else _str_to_utf16_loop src dlen gas dest1 r.2 idx1

/-- str_to_utf16 in str.c (dest modelled as a list of 16-bit units). -/
def str_to_utf16 (dest : List Nat) (dlen : Nat) (src : List Nat) : Errno × List Nat :=
  _str_to_utf16_loop src dlen dlen dest 0 0

/-- One pass of maximal-subsequence decoding over a sized buffer (the
glossary notion the spec uses): decode from the front of the remaining
buffer with a clean state, emit some scalar or none for an
invalid-or-incomplete sequence, continue past the consumed bytes.  Any
fuel ≥ length completes the pass, since every step consumes at least one
byte. -/
def _decodeList : List Nat → Nat → List (Option Nat)
  | _, 0 => []
  | s, fuel + 1 =>
    if s.isEmpty then []
    else
      let r := _str_decode s 0 s.length 0
      (if r.1 == CHAR_INVALID || r.2.2 != 0 then none else some r.1)
        :: _decodeList (s.drop r.2.1) fuel

def decodeList (s : List Nat) : List (Option Nat) := _decodeList s s.length

/-- Well-formed byte sequence (spec glossary): every maximal subsequence
decodes without error. -/
def wellFormed (s : List Nat) : Bool := (decodeList s).all (·.isSome)

/-- The decoded scalar sequence of a byte sequence (errors read as 0;
they never occur on well-formed input). -/
def scalars (s : List Nat) : List Nat := (decodeList s).map (·.getD 0)

/-- Lexicographic comparison of two scalar sequences, the spec side of the
ordering claim. -/
def scalarCmp : List Nat → List Nat → Int
  | [], [] => 0
  | [], _ :: _ => -1
  | _ :: _, [] => 1
  | a :: s1, b :: s2 => if a == b then scalarCmp s1 s2 else if a < b then -1 else 1

/-- The canonical (shortest-form) UTF-8 encoding of a scalar, written with
explicit arithmetic.  Used as the reference against which both chr_encode
output bytes and decoder byte consumption are proved exact. -/
def utf8Enc (c : Nat) : List Nat :=
  if c < 0x80 then [c]
  else if c < 0x800 then [0xC0 + c / 64, 0x80 + c % 64]
  else if c < 0x10000 then [0xE0 + c / 4096, 0x80 + c / 64 % 64, 0x80 + c % 64]
  else [0xF0 + c / 262144, 0x80 + c / 4096 % 64, 0x80 + c / 64 % 64, 0x80 + c % 64]

/-- Valid Unicode scalar value: in range and not a surrogate. -/
def ValidScalar (c : Nat) : Prop := c ≤ 0x10FFFF ∧ ¬(0xD800 ≤ c ∧ c ≤ 0xDFFF)

instance : DecidablePred ValidScalar := fun c => by unfold ValidScalar; infer_instance

example : chr_encode 0x61 [9, 9, 9, 9] 0 4 = (.EOK, [0x61, 9, 9, 9], 1) := by decide
example : chr_encode 0xE9 [9, 9, 9, 9] 0 4 = (.EOK, [0xC3, 0xA9, 9, 9], 2) := by decide
example : str_decode [0xC3, 0xA9, 9, 9] 0 4 = (0xE9, 2) := by decide
example : chr_encode 0x110000 [9, 9, 9, 9] 0 4 = (.EINVAL, [9, 9, 9, 9], 0) := by decide
example : str_decode [0xED, 0xA0, 0x80] 0 3 = (U_SPECIAL, 3) := by decide
example : str_decode [0xC0, 0x80] 0 2 = (U_SPECIAL, 1) := by decide
example : str_cmp [0x61] [0x62] = -1 := by decide
example : str_cmp [0x61, 0x62, 0x63] [0x61, 0x62] = 1 := by decide
example : str_cmp [0x61, 0x62, 0x63] [0x61, 0x62, 0x63] = 0 := by decide
example : decodeList [0x61, 0xC3, 0xA9] = [some 0x61, some 0xE9] := by decide
example : decodeList [0x61, 0xC3] = [some 0x61, none] := by decide
example : wellFormed [0xF4, 0x8F, 0xBF, 0xBF] = true := by decide
example : wellFormed [0xF4, 0x90, 0x80, 0x80] = false := by decide
example : str_sanitize [0x61, 0xC3, 0x61] 3 0x3F = (1, [0x61, 0x3F, 0x61]) := by decide
example : str_sanitize [0x61, 0xC3, 0xA9] 3 0x3F = (0, [0x61, 0xC3, 0xA9]) := by decide
example : str_cpy [9, 9, 9, 9] 3 [0x61, 0xC3, 0xA9] = [0x61, 0x3F, 0, 9] := by decide
example : str_to_utf16 [9, 9, 9, 9, 9] 5 [0xF0, 0x90, 0x80, 0x81] =
  (.EOK, [0xD800, 0xDC01, 0, 9, 9]) := by decide

/-! ### Bridging lemmas between C bit operations and arithmetic -/

theorem lor_shift_add (x y k : Nat) (h : y < 2 ^ k) : (x <<< k) ||| y = x * 2 ^ k + y := by
  rw [Nat.shiftLeft_eq, Nat.mul_comm]
  exact (Nat.mul_add_lt_is_or h x).symm

theorem and63 (x : Nat) : x &&& 63 = x % 64 := by
  have h := Nat.and_pow_two_sub_one_eq_mod x 6
  norm_num at h
  exact h

theorem and31 (x : Nat) : x &&& 31 = x % 32 := by
  have h := Nat.and_pow_two_sub_one_eq_mod x 5
  norm_num at h
  exact h

theorem and15 (x : Nat) : x &&& 15 = x % 16 := by
  have h := Nat.and_pow_two_sub_one_eq_mod x 4
  norm_num at h
  exact h

theorem and7 (x : Nat) : x &&& 7 = x % 8 := by
  have h := Nat.and_pow_two_sub_one_eq_mod x 3
  norm_num at h
  exact h

theorem and1023 (x : Nat) : x &&& 1023 = x % 1024 := by
  have h := Nat.and_pow_two_sub_one_eq_mod x 10
  norm_num at h
  exact h

theorem and_shift_mask (x m k : Nat) : x &&& (m <<< k) = ((x >>> k) &&& m) <<< k := by
  apply Nat.eq_of_testBit_eq
  intro i
  simp only [Nat.testBit_and, Nat.testBit_shiftLeft, Nat.testBit_shiftRight]
  rcases Nat.lt_or_ge i k with h | h
  · have hk : ¬ k ≤ i := by omega
    simp [hk]
  · have hik : k + (i - k) = i := by omega
    simp [h, hik, Bool.and_left_comm, Bool.and_comm, Bool.and_assoc]

theorem and_hi_eq_zero_iff (x a b : Nat) (hx : x < 2 ^ (a + b)) :
    x &&& ((2 ^ a - 1) <<< b) = 0 ↔ x < 2 ^ b := by
  rw [and_shift_mask, Nat.shiftLeft_eq, Nat.shiftRight_eq_div_pow,
    Nat.and_pow_two_sub_one_eq_mod]
  have hdiv : x / 2 ^ b < 2 ^ a := by
    apply Nat.div_lt_of_lt_mul
    calc x < 2 ^ (a + b) := hx
    _ = 2 ^ b * 2 ^ a := by rw [Nat.pow_add, Nat.mul_comm]
  rw [Nat.mod_eq_of_lt hdiv]
  constructor
  · intro h
    rcases Nat.mul_eq_zero.1 h with h0 | h0
    · have hb := Nat.two_pow_pos b
      rcases Nat.lt_or_ge x (2 ^ b) with hlt | hge
      · exact hlt
      · exact absurd h0 (by have := Nat.one_le_div_iff hb |>.2 hge; omega)
    · exact absurd h0 (Nat.pos_iff_ne_zero.1 (Nat.two_pow_pos b))
  · intro h
    rw [Nat.div_eq_of_lt h, Nat.zero_mul]

theorem cont_bytes_0 (c : Nat) (h : c < 0x80) : _char_continuation_bytes c = 0 := by
  have e7 : NOT32 (LO_MASK_32 7) = (2 ^ 25 - 1) <<< 7 := by decide
  have b7 : (c &&& NOT32 (LO_MASK_32 7) == 0) = true := by
    simp only [e7, beq_iff_eq]
    rw [and_hi_eq_zero_iff c 25 7 (by norm_num; omega)]
    omega
  simp [_char_continuation_bytes, b7]

theorem cont_bytes_1 (c : Nat) (h1 : 0x80 ≤ c) (h2 : c < 0x800) :
    _char_continuation_bytes c = 1 := by
  have e7 : NOT32 (LO_MASK_32 7) = (2 ^ 25 - 1) <<< 7 := by decide
  have e11 : NOT32 (LO_MASK_32 11) = (2 ^ 21 - 1) <<< 11 := by decide
  have b7 : (c &&& NOT32 (LO_MASK_32 7) == 0) = false := by
    simp only [e7, beq_eq_false_iff_ne, Ne]
    rw [and_hi_eq_zero_iff c 25 7 (by norm_num; omega)]
    omega
  have b11 : (c &&& NOT32 (LO_MASK_32 11) == 0) = true := by
    simp only [e11, beq_iff_eq]
    rw [and_hi_eq_zero_iff c 21 11 (by norm_num; omega)]
    omega
  simp [_char_continuation_bytes, b7, b11]

theorem cont_bytes_2 (c : Nat) (h1 : 0x800 ≤ c) (h2 : c < 0x10000) :
    _char_continuation_bytes c = 2 := by
  have e7 : NOT32 (LO_MASK_32 7) = (2 ^ 25 - 1) <<< 7 := by decide
  have e11 : NOT32 (LO_MASK_32 11) = (2 ^ 21 - 1) <<< 11 := by decide
  have e16 : NOT32 (LO_MASK_32 16) = (2 ^ 16 - 1) <<< 16 := by decide
  have b7 : (c &&& NOT32 (LO_MASK_32 7) == 0) = false := by
    simp only [e7, beq_eq_false_iff_ne, Ne]
    rw [and_hi_eq_zero_iff c 25 7 (by norm_num; omega)]
    omega
  have b11 : (c &&& NOT32 (LO_MASK_32 11) == 0) = false := by
    simp only [e11, beq_eq_false_iff_ne, Ne]
    rw [and_hi_eq_zero_iff c 21 11 (by norm_num; omega)]
    omega
  have b16 : (c &&& NOT32 (LO_MASK_32 16) == 0) = true := by
    simp only [e16, beq_iff_eq]
    rw [and_hi_eq_zero_iff c 16 16 (by norm_num; omega)]
    omega
  simp [_char_continuation_bytes, b7, b11, b16]

theorem cont_bytes_3 (c : Nat) (h1 : 0x10000 ≤ c) (h2 : c < 0x200000) :
    _char_continuation_bytes c = 3 := by
  have e7 : NOT32 (LO_MASK_32 7) = (2 ^ 25 - 1) <<< 7 := by decide
  have e11 : NOT32 (LO_MASK_32 11) = (2 ^ 21 - 1) <<< 11 := by decide
  have e16 : NOT32 (LO_MASK_32 16) = (2 ^ 16 - 1) <<< 16 := by decide
  have e21 : NOT32 (LO_MASK_32 21) = (2 ^ 11 - 1) <<< 21 := by decide
  have b7 : (c &&& NOT32 (LO_MASK_32 7) == 0) = false := by
    simp only [e7, beq_eq_false_iff_ne, Ne]
    rw [and_hi_eq_zero_iff c 25 7 (by norm_num; omega)]
    omega
  have b11 : (c &&& NOT32 (LO_MASK_32 11) == 0) = false := by
    simp only [e11, beq_eq_false_iff_ne, Ne]
    rw [and_hi_eq_zero_iff c 21 11 (by norm_num; omega)]
    omega
  have b16 : (c &&& NOT32 (LO_MASK_32 16) == 0) = false := by
    simp only [e16, beq_eq_false_iff_ne, Ne]
    rw [and_hi_eq_zero_iff c 16 16 (by norm_num; omega)]
    omega
  have b21 : (c &&& NOT32 (LO_MASK_32 21) == 0) = true := by
    simp only [e21, beq_iff_eq]
    rw [and_hi_eq_zero_iff c 11 21 (by norm_num; omega)]
    omega
  simp [_char_continuation_bytes, b7, b11, b16, b21]

theorem cont_bytes_toNat_le_3 (ch : Nat) : (_char_continuation_bytes ch).toNat ≤ 3 := by
  unfold _char_continuation_bytes
  split_ifs <;> simp

/-! ### List access helpers -/

theorem getD_set_ne (l : List Nat) (i j a : Nat) (h : i ≠ j) :
    (l.set i a).getD j 0 = l.getD j 0 := by
  simp [List.getD_eq_getElem?_getD, List.getElem?_set_ne h]

theorem getD_set_self (l : List Nat) (i a : Nat) (h : i < l.length) :
    (l.set i a).getD i 0 = a := by
  simp [List.getD_eq_getElem?_getD, List.getElem?_set_self h]

theorem encode_cont_getD (offset : Nat) :
    ∀ i ch (str : List Nat) j, (j ≤ offset ∨ offset + i < j) →
      ((_encode_cont str offset ch i).1).getD j 0 = str.getD j 0 := by
  intro i
  induction i with
  | zero => intro ch str j _; rfl
  | succ n ih =>
    intro ch str j hj
    show ((_encode_cont (str.set (offset + (n + 1)) _) offset (ch >>> CONT_BITS) n).1).getD j 0 = _
    rw [ih _ _ j (by omega)]
    exact getD_set_ne _ _ _ _ (by omega)

theorem encode_cont_length (offset : Nat) :
    ∀ i ch (str : List Nat), ((_encode_cont str offset ch i).1).length = str.length := by
  intro i
  induction i with
  | zero => intro ch str; rfl
  | succ n ih =>
    intro ch str
    show ((_encode_cont (str.set (offset + (n + 1)) _) offset (ch >>> CONT_BITS) n).1).length = _
    rw [ih]
    exact List.length_set ..

/-- C7: chr_encode is atomic.  On EOVERFLOW or EINVAL no destination byte
is written and the offset is unchanged; on EOK the offset advances by
exactly the number of bytes emitted, between 1 and 4, and no byte outside
the emitted range changes. -/
theorem chr_encode_atomic (ch : Nat) (str : List Nat) (offset size : Nat) :
    ((chr_encode ch str offset size).1 ≠ Errno.EOK →
      (chr_encode ch str offset size).2.1 = str ∧
      (chr_encode ch str offset size).2.2 = offset) ∧
    ((chr_encode ch str offset size).1 = Errno.EOK →
      ∃ k, 1 ≤ k ∧ k ≤ 4 ∧ (chr_encode ch str offset size).2.2 = offset + k ∧
        ∀ i, i < offset ∨ offset + k ≤ i →
          (chr_encode ch str offset size).2.1.getD i 0 = str.getD i 0) := by
  unfold chr_encode
  split_ifs with h1 h2 h3 h4
  · exact ⟨fun _ => ⟨rfl, rfl⟩, fun h => absurd h (by simp)⟩
  · refine ⟨fun h => absurd rfl h, fun _ => ⟨1, by omega, by omega, rfl, ?_⟩⟩
    intro i hi
    exact getD_set_ne _ _ _ _ (by omega)
  · exact ⟨fun _ => ⟨rfl, rfl⟩, fun h => absurd h (by simp)⟩
  · exact ⟨fun _ => ⟨rfl, rfl⟩, fun h => absurd h (by simp)⟩
  · refine ⟨fun h => absurd rfl h, fun _ => ?_⟩
    refine ⟨(_char_continuation_bytes ch).toNat + 1, by omega,
      by have := cont_bytes_toNat_le_3 ch; omega, rfl, ?_⟩
    intro i hi
    rw [getD_set_ne _ _ _ _ (by omega)]
    exact encode_cont_getD offset _ ch str i (by omega)

/-- C10 counterexample: chr_encode does not return EINVAL for every
out-of-range scalar; with the destination already full, the overflow check
fires first and the call returns EOVERFLOW for scalar 0x110000. -/
theorem chr_encode_einval_counterexample :
    0x10FFFF < 0x110000 ∧ (chr_encode 0x110000 [0] 0 0).1 ≠ Errno.EINVAL := by decide

theorem shiftRight6_eq (x : Nat) : x >>> 6 = x / 64 := by
  have h := Nat.shiftRight_eq_div_pow x 6
  norm_num at h
  exact h

theorem lor_const_add (c y k : Nat) (hc : c % 2 ^ k = 0) (hy : y < 2 ^ k) :
    c ||| y = c + y := by
  conv_lhs => rw [show c = (c / 2 ^ k) <<< k by
    rw [Nat.shiftLeft_eq, Nat.div_mul_cancel (Nat.dvd_of_mod_eq_zero hc)]]
  rw [lor_shift_add _ y k hy, Nat.div_mul_cancel (Nat.dvd_of_mod_eq_zero hc)]

theorem lor128 (y : Nat) (h : y < 64) : 128 ||| y = 128 + y :=
  lor_const_add 128 y 6 (by norm_num) (by omega)

/-- C10 (amended): when the destination has room for the next byte,
chr_encode returns EINVAL exactly for scalars above 0x10FFFF; and a
surrogate scalar with sufficient space is encoded with EOK as its 3-byte
UTF-8-style sequence 0xED 0xA0+hi 0x80+lo. -/
theorem chr_encode_einval_iff (ch : Nat) (str : List Nat) (offset size : Nat) :
    (offset < size →
      ((chr_encode ch str offset size).1 = Errno.EINVAL ↔ 0x10FFFF < ch)) ∧
    (0xD800 ≤ ch → ch ≤ 0xDFFF → offset + 2 < size →
      chr_encode ch str offset size =
        (Errno.EOK,
          ((str.set (offset + 2) (0x80 + ch % 64)).set (offset + 1)
              (0x80 + ch / 64 % 64)).set offset (0xE0 + ch / 4096),
          offset + 3)) := by
  constructor
  · intro hoff
    unfold chr_encode
    rw [if_neg (by omega)]
    by_cases h2 : ch < 0x80
    · rw [if_pos h2]
      simp
      omega
    rw [if_neg h2]
    by_cases h3 : (!chr_check ch) = true
    · rw [if_pos h3]
      simp only [chr_check, Bool.not_eq_true', decide_eq_false_iff_not, Nat.not_le] at h3
      simp
      omega
    · rw [if_neg h3]
      simp only [chr_check, Bool.not_eq_true', decide_eq_false_iff_not, Nat.not_le] at h3
      constructor
      · intro h
        exfalso
        by_cases h4 : offset + (_char_continuation_bytes ch).toNat ≥ size
        · rw [if_pos h4] at h
          exact absurd h (by simp)
        · rw [if_neg h4] at h
          exact absurd h (by simp)
      · intro h
        exact absurd h (by omega)
  · intro hs1 hs2 hroom
    have hcb : _char_continuation_bytes ch = 2 := cont_bytes_2 ch (by omega) (by omega)
    unfold chr_encode
    rw [if_neg (by omega), if_neg (by omega),
      if_neg (by simp [chr_check]; omega), hcb]
    rw [if_neg (by simp; omega)]
    have v2 : 0x80 ||| (ch &&& LO_MASK_32 CONT_BITS) = 0x80 + ch % 64 := by
      rw [show LO_MASK_32 CONT_BITS = 63 from by decide, and63, lor128 _ (by omega)]
    have v1 : 0x80 ||| ((ch >>> CONT_BITS) &&& LO_MASK_32 CONT_BITS) =
        0x80 + ch / 64 % 64 := by
      rw [show LO_MASK_32 CONT_BITS = 63 from by decide, and63, lor128 _ (by omega),
        show CONT_BITS = 6 from rfl, shiftRight6_eq]
    have henc : _encode_cont str offset ch (Int.toNat 2) =
        ((str.set (offset + 2) (0x80 + ch % 64)).set (offset + 1) (0x80 + ch / 64 % 64),
          ch / 4096) := by
      show _encode_cont (str.set (offset + 2) (0x80 ||| (ch &&& LO_MASK_32 CONT_BITS)))
          offset (ch >>> CONT_BITS) 1 = _
      show (((str.set (offset + 2) (0x80 ||| (ch &&& LO_MASK_32 CONT_BITS))).set (offset + 1)
          (0x80 ||| ((ch >>> CONT_BITS) &&& LO_MASK_32 CONT_BITS))),
          (ch >>> CONT_BITS) >>> CONT_BITS) = _
      rw [v2, v1, show CONT_BITS = 6 from rfl, shiftRight6_eq, shiftRight6_eq,
        Nat.div_div_eq_div_mul]
    rw [henc]
    have hd : ch / 4096 = 13 := by omega
    have hval : (ch / 4096 &&& LO_MASK_32 (6 - Int.toNat 2)) |||
        HI_MASK_8 (8 - (6 - Int.toNat 2) - 1) = 0xE0 + ch / 4096 := by
      rw [show (6 - Int.toNat 2 : Nat) = 4 from rfl, show LO_MASK_32 4 = 15 from by decide,
        show HI_MASK_8 (8 - 4 - 1) = 0xE0 from by decide, and15, hd]
      decide
    rw [hval]
    rfl

/-- C10 witness: both amended properties instantiated at scalar 0xD800
with a four-byte destination. -/
theorem chr_encode_einval_iff_witness :
    (0 : Nat) < 4 ∧ ((chr_encode 0xD800 [9, 9, 9, 9] 0 4).1 = Errno.EINVAL ↔ 0x10FFFF < 0xD800) ∧
      chr_encode 0xD800 [9, 9, 9, 9] 0 4 =
        (Errno.EOK, [0xED, 0xA0, 0x80, 9], 3) := by
  refine ⟨by decide, (chr_encode_einval_iff 0xD800 [9, 9, 9, 9] 0 4).1 (by decide), ?_⟩
  have h := (chr_encode_einval_iff 0xD800 [9, 9, 9, 9] 0 4).2 (by decide) (by decide) (by decide)
  rw [h]
  decide

/-- C2: the streaming decoder is not equivalent to whole-buffer decoding.
Decoding F4 90 80 80 in one call with the full buffer yields the
invalid-sequence sentinel, but feeding the same bytes one at a time while
persisting the mbstate_t across calls yields the out-of-range scalar
0x110000, because the resumable path lacks the range check of the fast
path. -/
theorem streaming_decode_divergence :
    _str_decode [0xF4, 0x90, 0x80, 0x80] 0 4 0 = (CHAR_INVALID, 4, 0) ∧
    _str_decode [0xF4] 0 1 0 = (0, 1, 0xFFF4) ∧
    _str_decode [0x90] 0 1 0xFFF4 = (0, 1, 0xFD10) ∧
    _str_decode [0x80] 0 1 0xFD10 = (0, 1, 0x4400) ∧
    _str_decode [0x80] 0 1 0x4400 = (0x110000, 1, 0) ∧
    0x10FFFF < 0x110000 := by decide

/-- C6: str_to_utf16 mishandles the boundary scalar 0x10000 because of
its strict `c > 0x10000` comparison: decoding F0 90 80 80 (U+10000) and
transcoding it emits the single 16-bit unit 0 (the scalar truncated mod
2^16) instead of the surrogate pair D800 DC00. -/
theorem str_to_utf16_u10000_bug :
    decodeList [0xF0, 0x90, 0x80, 0x80] = [some 0x10000] ∧
    str_to_utf16 [9, 9, 9, 9] 4 [0xF0, 0x90, 0x80, 0x80] = (Errno.EOK, [0, 0, 9, 9]) := by
  decide

/-! ### Decoder cursor invariants -/

theorem cont_loop_mono (s : List Nat) :
    ∀ gas offset state,
      offset ≤ (_decode_cont_loop s gas offset state).2.1 ∧
      (_decode_cont_loop s gas offset state).2.1 ≤ offset + gas := by
  intro gas
  induction gas with
  | zero =>
    intro offset state
    simp only [_decode_cont_loop]
    omega
  | succ n ih =>
    intro offset state
    simp only [_decode_cont_loop]
    split_ifs
    · dsimp only
      omega
    · dsimp only
      omega
    · have h := ih (offset + 1) ((state <<< 6 ||| (s.getD offset 0 &&& UTF8_MASK_CONT)) % 65536)
      omega

theorem cont_loop_agree (s s' : List Nat) :
    ∀ gas offset state,
      (∀ i, offset ≤ i → i < offset + gas → s.getD i 0 = s'.getD i 0) →
      _decode_cont_loop s' gas offset state = _decode_cont_loop s gas offset state := by
  intro gas
  induction gas with
  | zero => intro offset state _; rfl
  | succ n ih =>
    intro offset state hag
    have hb : s'.getD offset 0 = s.getD offset 0 := (hag offset (Nat.le_refl _) (by omega)).symm
    simp only [_decode_cont_loop, hb]
    split_ifs
    · rfl
    · rfl
    · exact ih (offset + 1) _ (fun i h1 h2 => hag i (by omega) (by omega))

theorem decode_bounds (s : List Nat) (offset size state : Nat) (hoff : offset ≤ size) :
    offset ≤ (_str_decode s offset size state).2.1 ∧
    (_str_decode s offset size state).2.1 ≤ size := by
  unfold _str_decode
  by_cases h0 : offset == size
  · rw [if_pos h0]
    exact ⟨Nat.le_refl _, hoff⟩
  rw [if_neg h0]
  simp only [beq_iff_eq] at h0
  have hlt : offset < size := by omega
  by_cases hst : state == 0
  case neg =>
    rw [if_neg hst]
    have h := cont_loop_mono s (size - offset) offset state
    omega
  rw [if_pos hst]
  split_ifs <;> (try dsimp only) <;>
    (try simp only [Bool.and_eq_true, decide_eq_true_eq] at *) <;>
    first
      | omega
      | (have h := cont_loop_mono s (size - (offset + 1)) (offset + 1)
          (s.getD offset 0 ^^^ 192)
         have hsz : offset + 1 + (size - (offset + 1)) = size := by omega
         omega)
      | (have h := cont_loop_mono s (size - (offset + 1)) (offset + 1)
          (s.getD offset 0 ^^^ 64736)
         have hsz : offset + 1 + (size - (offset + 1)) = size := by omega
         omega)
      | (have h := cont_loop_mono s (size - (offset + 1)) (offset + 1)
          (s.getD offset 0 ^^^ 65280)
         have hsz : offset + 1 + (size - (offset + 1)) = size := by omega
         omega)

theorem decode_agree (s s' : List Nat) (offset size state : Nat) (hoff : offset ≤ size)
    (hag : ∀ i, i < size → s'.getD i 0 = s.getD i 0) :
    _str_decode s' offset size state = _str_decode s offset size state := by
  have hloop : ∀ o st, offset ≤ o →
      _decode_cont_loop s' (size - o) o st = _decode_cont_loop s (size - o) o st :=
    fun o st _ => cont_loop_agree s s' _ _ _ (fun i hi1 hi2 => (hag i (by omega)).symm)
  unfold _str_decode
  by_cases h0 : offset == size
  · rw [if_pos h0, if_pos h0]
  rw [if_neg h0, if_neg h0]
  simp only [beq_iff_eq] at h0
  have hin : offset < size := by omega
  by_cases hst : state == 0
  case neg =>
    rw [if_neg hst, if_neg hst]
    exact hloop offset state (Nat.le_refl _)
  rw [if_pos hst, if_pos hst]
  rw [hag offset hin]
  by_cases hA : _is_ascii (s.getD offset 0)
  · rw [if_pos hA, if_pos hA]
  rw [if_neg hA, if_neg hA]
  by_cases hC : _is_continuation (s.getD offset 0)
  · rw [if_pos hC, if_pos hC]
  rw [if_neg hC, if_neg hC]
  by_cases h2 : _is_2_byte (s.getD offset 0)
  · rw [if_pos h2, if_pos h2]
    by_cases hsh : (s.getD offset 0 &&& 30 == 0) = true
    · rw [if_pos hsh, if_pos hsh]
    rw [if_neg hsh, if_neg hsh]
    by_cases hi1 : offset + 1 < size
    · rw [hag (offset + 1) hi1]
      by_cases hf : (decide (offset + 1 < size) &&
          _is_continuation (s.getD (offset + 1) 0)) = true
      · rw [if_pos hf, if_pos hf]
      · rw [if_neg hf, if_neg hf]
        exact hloop (offset + 1) _ (by omega)
    · rw [if_neg (by simp [hi1]), if_neg (by simp [hi1])]
      exact hloop (offset + 1) _ (by omega)
  rw [if_neg h2, if_neg h2]
  by_cases h3 : _is_3_byte (s.getD offset 0)
  · rw [if_pos h3, if_pos h3]
    by_cases hi1 : offset + 2 < size
    · rw [hag (offset + 1) (by omega), hag (offset + 2) (by omega)]
      by_cases hf : (decide (offset + 2 < size) &&
          _is_continuation (s.getD (offset + 1) 0) &&
          _is_continuation (s.getD (offset + 2) 0)) = true
      · rw [if_pos hf, if_pos hf]
      · rw [if_neg hf, if_neg hf]
        exact hloop (offset + 1) _ (by omega)
    · rw [if_neg (by simp [hi1]), if_neg (by simp [hi1])]
      exact hloop (offset + 1) _ (by omega)
  rw [if_neg h3, if_neg h3]
  by_cases h4 : _is_4_byte (s.getD offset 0)
  · rw [if_pos h4, if_pos h4]
    by_cases hi1 : offset + 3 < size
    · rw [hag (offset + 1) (by omega), hag (offset + 2) (by omega),
        hag (offset + 3) (by omega)]
      by_cases hf : (decide (offset + 3 < size) &&
          _is_continuation (s.getD (offset + 1) 0) &&
          _is_continuation (s.getD (offset + 2) 0) &&
          _is_continuation (s.getD (offset + 3) 0)) = true
      · rw [if_pos hf, if_pos hf]
      · rw [if_neg hf, if_neg hf]
        exact hloop (offset + 1) _ (by omega)
    · rw [if_neg (by simp [hi1]), if_neg (by simp [hi1])]
      exact hloop (offset + 1) _ (by omega)
  rw [if_neg h4, if_neg h4]

/-- C8: decoder cursor invariants: the cursor never moves backward and
never exceeds the declared size; the result depends only on the bytes at
indices below size, so the decoder never reads past the limit; and a call
with offset == size and clean state returns 0 without moving the cursor. -/
theorem str_decode_cursor_invariants (s s' : List Nat) (offset size state : Nat)
    (hoff : offset ≤ size) (hag : ∀ i, i < size → s'.getD i 0 = s.getD i 0) :
    offset ≤ (_str_decode s offset size state).2.1 ∧
    (_str_decode s offset size state).2.1 ≤ size ∧
    _str_decode s' offset size state = _str_decode s offset size state ∧
    (offset = size → state = 0 → _str_decode s offset size state = (0, offset, 0)) := by
  refine ⟨(decode_bounds s offset size state hoff).1,
    (decode_bounds s offset size state hoff).2,
    decode_agree s s' offset size state hoff hag, ?_⟩
  intro he hst
  subst hst
  unfold _str_decode
  rw [if_pos (by simp [he])]

/-- C8 witness: the invariants instantiated at a concrete call. -/
theorem str_decode_cursor_invariants_witness :
    (0 : Nat) ≤ 1 ∧
    (0 ≤ (_str_decode [0x41] 0 1 0).2.1 ∧
      (_str_decode [0x41] 0 1 0).2.1 ≤ 1 ∧
      _str_decode [0x41] 0 1 0 = _str_decode [0x41] 0 1 0 ∧
      ((0 : Nat) = 1 → 0 = 0 → _str_decode [0x41] 0 1 0 = (0, 0, 0))) :=
  ⟨by decide, str_decode_cursor_invariants [0x41] [0x41] 0 1 0 (by decide) (fun i hi => rfl)⟩

/-! ### Value lemmas for the packed decoder states and combined characters -/

theorem and_mask_mul (b m k : Nat) :
    b &&& ((2 ^ m - 1) <<< k) = b / 2 ^ k % 2 ^ m * 2 ^ k := by
  rw [and_shift_mask, Nat.shiftRight_eq_div_pow, Nat.and_pow_two_sub_one_eq_mod,
    Nat.shiftLeft_eq]

theorem and192 (b : Nat) : b &&& 192 = b / 64 % 4 * 64 := by
  have h := and_mask_mul b 2 6
  norm_num at h
  exact h

theorem and32768 (b : Nat) : b &&& 32768 = b / 32768 % 2 * 32768 := by
  have h := and_mask_mul b 1 15
  norm_num at h
  exact h

theorem is_cont_iff (b : Nat) : _is_continuation b = true ↔ b / 64 % 4 = 2 := by
  unfold _is_continuation
  simp only [beq_iff_eq, and192]
  omega

theorem is_2_byte_iff (b : Nat) : _is_2_byte b = true ↔ b / 32 % 8 = 6 := by
  unfold _is_2_byte
  have e : b &&& 224 = b / 32 % 8 * 32 := by
    have h := and_mask_mul b 3 5
    norm_num at h
    exact h
  simp only [beq_iff_eq, e]
  omega

theorem is_3_byte_iff (b : Nat) : _is_3_byte b = true ↔ b / 16 % 16 = 14 := by
  unfold _is_3_byte
  have e : b &&& 240 = b / 16 % 16 * 16 := by
    have h := and_mask_mul b 4 4
    norm_num at h
    exact h
  simp only [beq_iff_eq, e]
  omega

theorem is_4_byte_iff (b : Nat) : _is_4_byte b = true ↔ b / 8 % 32 = 30 := by
  unfold _is_4_byte
  have e : b &&& 248 = b / 8 % 32 * 8 := by
    have h := and_mask_mul b 5 3
    norm_num at h
    exact h
  simp only [beq_iff_eq, e]
  omega

theorem and32 (b : Nat) : b &&& 32 = b / 32 % 2 * 32 := by
  have h := and_mask_mul b 1 5
  norm_num at h
  exact h

theorem and48 (b : Nat) : b &&& 48 = b / 16 % 4 * 16 := by
  have h := and_mask_mul b 2 4
  norm_num at h
  exact h

theorem utf8_char2_val (b c1 : Nat) :
    _utf8_char2 b c1 = (b &&& 31) * 64 + c1 % 64 := by
  unfold _utf8_char2
  rw [show UTF8_MASK_INITIAL2 = 31 from rfl, show UTF8_MASK_CONT = 63 from rfl, and63,
    lor_shift_add _ _ 6 (by omega)]
  norm_num

theorem utf8_char3_val (b c1 c2 : Nat) :
    _utf8_char3 b c1 c2 = (b &&& 15) * 4096 + c1 % 64 * 64 + c2 % 64 := by
  unfold _utf8_char3
  rw [show UTF8_MASK_INITIAL3 = 15 from rfl, show UTF8_MASK_CONT = 63 from rfl,
    and63, and63, Nat.lor_assoc, lor_shift_add _ _ 6 (by omega),
    lor_shift_add _ _ 12 (by omega)]
  norm_num
  omega

theorem utf8_char4_val (b c1 c2 c3 : Nat) :
    _utf8_char4 b c1 c2 c3 =
      (b &&& 7) * 262144 + c1 % 64 * 4096 + c2 % 64 * 64 + c3 % 64 := by
  unfold _utf8_char4
  rw [show UTF8_MASK_INITIAL4 = 7 from rfl, show UTF8_MASK_CONT = 63 from rfl,
    and63, and63, and63, Nat.lor_assoc, Nat.lor_assoc,
    lor_shift_add _ _ 6 (by omega), lor_shift_add _ _ 12 (by omega),
    lor_shift_add _ _ 18 (by omega)]
  norm_num
  omega

set_option maxRecDepth 8000 in
theorem xor_c0 : ∀ b, b < 256 → _is_2_byte b = true → b ^^^ 192 = b - 192 := by decide

set_option maxRecDepth 8000 in
theorem xor_e0 : ∀ b, b < 256 → _is_3_byte b = true → b ^^^ 64736 = 64512 + (b - 224) := by
  decide

set_option maxRecDepth 8000 in
theorem xor_f0 : ∀ b, b < 256 → _is_4_byte b = true → b ^^^ 65280 = 65520 + (b - 240) := by
  decide

/-- Extracts the three byte checks from a passed continuation-loop guard. -/
theorem loop_checks_pass (st b : Nat)
    (hc : ¬((!_is_continuation b || _is_non_shortest st b || _is_surrogate st b) = true)) :
    _is_continuation b = true ∧ _is_non_shortest st b = false ∧ _is_surrogate st b = false := by
  have hcF := Bool.eq_false_iff.mpr hc
  simp only [Bool.or_eq_false_iff, Bool.not_eq_false'] at hcF
  exact ⟨hcF.1.1, hcF.1.2, hcF.2⟩

theorem getD_lt_256 (s : List Nat) (h256 : ∀ b ∈ s, b < 256) (i : Nat) : s.getD i 0 < 256 := by
  rcases Nat.lt_or_ge i s.length with h | h
  · rw [List.getD_eq_getElem?_getD, List.getElem?_eq_getElem h]
    exact h256 _ (List.getElem_mem h)
  · rw [List.getD_eq_getElem?_getD, List.getElem?_eq_none h]
    norm_num

/-- Any continuation-loop call whose state has a clear top bit either
reports end of input, rejects the byte, or completes with the shifted-in
value. -/
theorem loop_small_state (s : List Nat) (gas off st : Nat) (h1 : st < 32768) :
    _decode_cont_loop s gas off st = (0, off, st) ∨
    (_decode_cont_loop s gas off st).1 = CHAR_INVALID ∨
    _decode_cont_loop s gas off st =
      (st <<< 6 ||| (s.getD off 0 &&& UTF8_MASK_CONT), off + 1, 0) := by
  cases gas with
  | zero => left; rfl
  | succ g =>
    simp only [_decode_cont_loop]
    split_ifs with hc hmsb
    · right; left; rfl
    · right; right; rfl
    · exfalso
      apply hmsb
      simp only [beq_iff_eq, and32768]
      omega

/-- A continuation loop started from a 3-byte leader state (0xFC00 + x)
never completes with a surrogate or a value above 0xFFFF: the surrogate
leader state 0xFC0D rejects second bytes ≥ 0xA0 before they are packed. -/
theorem loop_3byte (s : List Nat) (gas off x : Nat) (hx : x ≤ 15) :
    (_decode_cont_loop s gas off (64512 + x)).1 = CHAR_INVALID ∨
    (_decode_cont_loop s gas off (64512 + x)).1 = 0 ∨
    ((_decode_cont_loop s gas off (64512 + x)).1 ≤ 65535 ∧
      ¬(55296 ≤ (_decode_cont_loop s gas off (64512 + x)).1 ∧
        (_decode_cont_loop s gas off (64512 + x)).1 ≤ 57343)) := by
  cases gas with
  | zero => right; left; rfl
  | succ g =>
    simp only [_decode_cont_loop, show UTF8_MASK_CONT = 63 from rfl]
    split_ifs with hc hmsb
    · left; rfl
    · exfalso
      simp only [beq_iff_eq, and32768] at hmsb
      omega
    · obtain ⟨hcont, -, hsurr⟩ := loop_checks_pass _ _ hc
      have hst1 : ((64512 + x) <<< 6 ||| (s.getD off 0 &&& 63)) % 65536
          = 64 * x + s.getD off 0 % 64 := by
        rw [and63, lor_shift_add _ _ 6 (by omega)]
        have : (64512 + x) * 2 ^ 6 = 63 * 65536 + 64 * x := by ring_nf
        omega
      rw [hst1]
      cases g with
      | zero => right; left; rfl
      | succ g2 =>
        simp only [_decode_cont_loop, show UTF8_MASK_CONT = 63 from rfl]
        split_ifs with hc2 hmsb2
        · left; rfl
        · right; right
          have hval : (64 * x + s.getD off 0 % 64) <<< 6 ||| (s.getD (off + 1) 0 &&& 63)
              = (64 * x + s.getD off 0 % 64) * 64 + s.getD (off + 1) 0 % 64 := by
            rw [and63, lor_shift_add _ _ 6 (by omega)]
            norm_num
          dsimp only
          rw [hval]
          constructor
          · omega
          · rintro ⟨hs1, hs2⟩
            have hx13 : x = 13 := by omega
            rw [hx13] at hsurr
            simp only [_is_surrogate, show ((64512 + 13 : Nat) == 64525) = true from rfl,
              Bool.true_and, decide_eq_false_iff_not, Nat.not_le] at hsurr
            rw [is_cont_iff] at hcont
            omega
        · exfalso
          apply hmsb2
          simp only [beq_iff_eq, and32768]
          omega

/-- A continuation loop started from a 4-byte leader state (0xFFF0 + x)
with exactly the remaining bytes size - off available, in the situation
where the 4-byte fast path was not taken, can only reject the sequence or
report it incomplete: completing would need three continuation bytes
within the limit, which is exactly the fast-path condition. -/
theorem loop_4byte (s : List Nat) (size off x : Nat) (hx : x ≤ 7)
    (hnf : ¬(off + 2 < size ∧ _is_continuation (s.getD off 0) = true ∧
      _is_continuation (s.getD (off + 1) 0) = true ∧
      _is_continuation (s.getD (off + 2) 0) = true)) :
    (_decode_cont_loop s (size - off) off (65520 + x)).1 = CHAR_INVALID ∨
    (_decode_cont_loop s (size - off) off (65520 + x)).1 = 0 := by
  rcases hg : size - off with _ | g1
  · right; rfl
  simp only [_decode_cont_loop, show UTF8_MASK_CONT = 63 from rfl]
  split_ifs with hc hmsb
  · left; rfl
  · exfalso
    simp only [beq_iff_eq, and32768] at hmsb
    omega
  obtain ⟨hcont1, -, -⟩ := loop_checks_pass _ _ hc
  have hst1 : ((65520 + x) <<< 6 ||| (s.getD off 0 &&& 63)) % 65536
      = 64512 + 64 * x + s.getD off 0 % 64 := by
    rw [and63, lor_shift_add _ _ 6 (by omega)]
    have : (65520 + x) * 2 ^ 6 = 63 * 65536 + 64512 + 64 * x := by ring_nf
    omega
  rw [hst1]
  rcases g1 with _ | g2
  · right; rfl
  simp only [_decode_cont_loop, show UTF8_MASK_CONT = 63 from rfl]
  split_ifs with hc2 hmsb2
  · left; rfl
  · exfalso
    simp only [beq_iff_eq, and32768] at hmsb2
    omega
  obtain ⟨hcont2, -, -⟩ := loop_checks_pass _ _ hc2
  have hst2 : ((64512 + 64 * x + s.getD off 0 % 64) <<< 6 ||| (s.getD (off + 1) 0 &&& 63))
      % 65536 = 4096 * x + 64 * (s.getD off 0 % 64) + s.getD (off + 1) 0 % 64 := by
    rw [and63, lor_shift_add _ _ 6 (by omega)]
    have : (64512 + 64 * x + s.getD off 0 % 64) * 2 ^ 6 =
        63 * 65536 + 4096 * x + 64 * (s.getD off 0 % 64) := by ring_nf
    omega
  rw [hst2]
  rcases g2 with _ | g3
  · right; rfl
  simp only [_decode_cont_loop, show UTF8_MASK_CONT = 63 from rfl]
  split_ifs with hc3 hmsb3
  · left; rfl
  · -- completion would require three continuation bytes within the limit,
    -- contradicting the failed fast-path condition
    exfalso
    obtain ⟨hcont3, -, -⟩ := loop_checks_pass _ _ hc3
    exact hnf ⟨by omega, hcont1, hcont2, hcont3⟩
  · exfalso
    apply hmsb3
    simp only [beq_iff_eq, and32768]
    omega

/-- From a clean state, a single _str_decode call returns the invalid
sentinel, 0, or a valid non-surrogate scalar: the fast paths check ranges
explicitly, the 2- and 3-byte resumable paths cannot assemble an
out-of-range or surrogate value, and the 4-byte resumable path can never
complete at all within the same call (completion would imply the
fast-path condition). -/
theorem decode_clean_cases (s : List Nat) (offset size : Nat)
    (h256 : ∀ b ∈ s, b < 256) :
    (_str_decode s offset size 0).1 = CHAR_INVALID ∨
    (_str_decode s offset size 0).1 = 0 ∨
    ((_str_decode s offset size 0).1 ≤ 1114111 ∧
      ¬(55296 ≤ (_str_decode s offset size 0).1 ∧
        (_str_decode s offset size 0).1 ≤ 57343)) := by
  have hb0 := getD_lt_256 s h256 offset
  unfold _str_decode
  by_cases h0 : offset == size
  · rw [if_pos h0]
    right; left; rfl
  rw [if_neg h0, if_pos (beq_self_eq_true 0)]
  by_cases hA : _is_ascii (s.getD offset 0)
  · rw [if_pos hA]
    simp only [_is_ascii, decide_eq_true_eq] at hA
    right; right
    exact ⟨by omega, by omega⟩
  rw [if_neg hA]
  by_cases hC : _is_continuation (s.getD offset 0)
  · rw [if_pos hC]
    left; rfl
  rw [if_neg hC]
  by_cases h2 : _is_2_byte (s.getD offset 0)
  · rw [if_pos h2]
    by_cases hsh : (s.getD offset 0 &&& 30 == 0) = true
    · rw [if_pos hsh]
      left; rfl
    rw [if_neg hsh]
    by_cases hf : (decide (offset + 1 < size) &&
        _is_continuation (s.getD (offset + 1) 0)) = true
    · rw [if_pos hf]
      right; right
      dsimp only
      rw [utf8_char2_val, and31]
      constructor <;> omega
    · rw [if_neg hf]
      rw [xor_c0 _ hb0 h2]
      have h2' := (is_2_byte_iff _).mp h2
      rcases loop_small_state s (size - (offset + 1)) (offset + 1)
          (s.getD offset 0 - 192) (by omega) with hre | hre | hre
      · rw [hre]
        right; left; rfl
      · left; exact hre
      · rw [hre]
        right; right
        dsimp only
        rw [show UTF8_MASK_CONT = 63 from rfl, and63, lor_shift_add _ _ 6 (by omega)]
        constructor <;> omega
  rw [if_neg h2]
  by_cases h3 : _is_3_byte (s.getD offset 0)
  · rw [if_pos h3]
    by_cases hf : (decide (offset + 2 < size) && _is_continuation (s.getD (offset + 1) 0) &&
        _is_continuation (s.getD (offset + 2) 0)) = true
    · rw [if_pos hf]
      by_cases hm : (_utf8_char3 (s.getD offset 0) (s.getD (offset + 1) 0)
          (s.getD (offset + 2) 0) &&& 0xFFFFF800 == 0) = true
      · rw [if_pos hm]
        left; rfl
      rw [if_neg hm]
      by_cases hs : (decide (_utf8_char3 (s.getD offset 0) (s.getD (offset + 1) 0)
            (s.getD (offset + 2) 0) ≥ 0xD800) &&
          decide (_utf8_char3 (s.getD offset 0) (s.getD (offset + 1) 0)
            (s.getD (offset + 2) 0) < 0xE000)) = true
      · rw [if_pos hs]
        left; rfl
      · rw [if_neg hs]
        right; right
        dsimp only
        have hv := utf8_char3_val (s.getD offset 0) (s.getD (offset + 1) 0)
          (s.getD (offset + 2) 0)
        rw [and15] at hv
        constructor
        · omega
        · rintro ⟨ha, hbb⟩
          apply hs
          simp only [Bool.and_eq_true, decide_eq_true_eq]
          exact ⟨ha, by omega⟩
    · rw [if_neg hf]
      rw [xor_e0 _ hb0 h3]
      have h3' := (is_3_byte_iff _).mp h3
      rcases loop_3byte s (size - (offset + 1)) (offset + 1)
          (s.getD offset 0 - 224) (by omega) with hre | hre | hre
      · left; exact hre
      · right; left; exact hre
      · right; right
        exact ⟨by omega, hre.2⟩
  rw [if_neg h3]
  by_cases h4 : _is_4_byte (s.getD offset 0)
  · rw [if_pos h4]
    by_cases hf : (decide (offset + 3 < size) && _is_continuation (s.getD (offset + 1) 0) &&
        _is_continuation (s.getD (offset + 2) 0) &&
        _is_continuation (s.getD (offset + 3) 0)) = true
    · rw [if_pos hf]
      by_cases hm : (_utf8_char4 (s.getD offset 0) (s.getD (offset + 1) 0)
          (s.getD (offset + 2) 0) (s.getD (offset + 3) 0) &&& 0xFFFF0000 == 0) = true
      · rw [if_pos hm]
        left; rfl
      rw [if_neg hm]
      by_cases hr : _utf8_char4 (s.getD offset 0) (s.getD (offset + 1) 0)
          (s.getD (offset + 2) 0) (s.getD (offset + 3) 0) ≥ 0x110000
      · rw [if_pos hr]
        left; rfl
      · rw [if_neg hr]
        right; right
        dsimp only
        have hv := utf8_char4_val (s.getD offset 0) (s.getD (offset + 1) 0)
          (s.getD (offset + 2) 0) (s.getD (offset + 3) 0)
        rw [and7] at hv
        simp only [beq_iff_eq] at hm
        rw [show (0xFFFF0000 : Nat) = (2 ^ 16 - 1) <<< 16 from by decide,
          and_hi_eq_zero_iff _ 16 16 (by rw [hv]; norm_num; omega)] at hm
        constructor
        · omega
        · rintro ⟨ha, hbb⟩
          omega
    · rw [if_neg hf]
      rw [xor_f0 _ hb0 h4]
      have h4' := (is_4_byte_iff _).mp h4
      have hnf : ¬(offset + 1 + 2 < size ∧
          _is_continuation (s.getD (offset + 1) 0) = true ∧
          _is_continuation (s.getD (offset + 1 + 1) 0) = true ∧
          _is_continuation (s.getD (offset + 1 + 2) 0) = true) := by
        rintro ⟨ha, hc1, hc2, hc3⟩
        apply hf
        simp only [Bool.and_eq_true, decide_eq_true_eq]
        exact ⟨⟨⟨by omega, hc1⟩, hc2⟩, hc3⟩
      rcases loop_4byte s size (offset + 1) (s.getD offset 0 - 240) (by omega) hnf
        with hre | hre
      · left; exact hre
      · right; left; exact hre
  rw [if_neg h4]
  left; rfl

/-- C9: the one-shot decoder str_decode never returns a scalar in the
surrogate range or above 0x10FFFF: every return value is 0, U_SPECIAL, or
a valid Unicode scalar value. -/
theorem str_decode_scalar_range (s : List Nat) (offset size : Nat)
    (h256 : ∀ b ∈ s, b < 256) :
    (str_decode s offset size).1 = 0 ∨ (str_decode s offset size).1 = U_SPECIAL ∨
    ((str_decode s offset size).1 ≤ 0x10FFFF ∧
      ¬(0xD800 ≤ (str_decode s offset size).1 ∧
        (str_decode s offset size).1 ≤ 0xDFFF)) := by
  unfold str_decode
  split_ifs with h
  · right; left; rfl
  · rcases decode_clean_cases s offset size h256 with hc | hc | hc
    · exfalso
      apply h
      left
      simp [hc]
    · left; exact hc
    · right; right; exact hc

/-- C9 witness: instantiated on a concrete buffer. -/
theorem str_decode_scalar_range_witness :
    (∀ b ∈ [0xED, 0xA0, 0x80], b < 256) ∧
    ((str_decode [0xED, 0xA0, 0x80] 0 3).1 = 0 ∨
      (str_decode [0xED, 0xA0, 0x80] 0 3).1 = U_SPECIAL ∨
      ((str_decode [0xED, 0xA0, 0x80] 0 3).1 ≤ 0x10FFFF ∧
        ¬(0xD800 ≤ (str_decode [0xED, 0xA0, 0x80] 0 3).1 ∧
          (str_decode [0xED, 0xA0, 0x80] 0 3).1 ≤ 0xDFFF))) :=
  ⟨by decide, str_decode_scalar_range [0xED, 0xA0, 0x80] 0 3 (by decide)⟩

/-! ### Exact output of chr_encode, per scalar range -/

theorem enc1_result (ch : Nat) (str : List Nat) (offset size : Nat)
    (h2 : ch < 0x80) (hsz : offset < size) :
    chr_encode ch str offset size = (Errno.EOK, str.set offset ch, offset + 1) := by
  unfold chr_encode
  rw [if_neg (by omega), if_pos h2]

theorem enc2_result (ch : Nat) (str : List Nat) (offset size : Nat)
    (h1 : 0x80 ≤ ch) (h2 : ch < 0x800) (hsz : offset + 1 < size) :
    chr_encode ch str offset size =
      (Errno.EOK, (str.set (offset + 1) (0x80 + ch % 64)).set offset (0xC0 + ch / 64),
        offset + 2) := by
  have hcb : _char_continuation_bytes ch = 1 := cont_bytes_1 ch h1 h2
  unfold chr_encode
  rw [if_neg (by omega), if_neg (by omega), if_neg (by simp [chr_check]; omega), hcb]
  rw [if_neg (by simp; omega)]
  have henc : _encode_cont str offset ch (Int.toNat 1) =
      (str.set (offset + 1) (0x80 + ch % 64), ch / 64) := by
    show (str.set (offset + 1) (0x80 ||| (ch &&& LO_MASK_32 CONT_BITS)), ch >>> CONT_BITS) = _
    rw [show LO_MASK_32 CONT_BITS = 63 from by decide, and63, lor128 _ (by omega),
      show CONT_BITS = 6 from rfl, shiftRight6_eq]
  rw [henc]
  have hval : (ch / 64 &&& LO_MASK_32 (6 - Int.toNat 1)) |||
      HI_MASK_8 (8 - (6 - Int.toNat 1) - 1) = 0xC0 + ch / 64 := by
    rw [show (6 - Int.toNat 1 : Nat) = 5 from rfl, show LO_MASK_32 5 = 31 from by decide,
      show HI_MASK_8 (8 - 5 - 1) = 0xC0 from by decide, and31,
      Nat.mod_eq_of_lt (by omega), Nat.lor_comm,
      lor_const_add 192 _ 6 (by norm_num) (by omega)]
  rw [hval]
  rfl

theorem enc3_result (ch : Nat) (str : List Nat) (offset size : Nat)
    (h1 : 0x800 ≤ ch) (h2 : ch < 0x10000) (hsz : offset + 2 < size) :
    chr_encode ch str offset size =
      (Errno.EOK,
        ((str.set (offset + 2) (0x80 + ch % 64)).set (offset + 1)
            (0x80 + ch / 64 % 64)).set offset (0xE0 + ch / 4096),
        offset + 3) := by
  have hcb : _char_continuation_bytes ch = 2 := cont_bytes_2 ch h1 h2
  unfold chr_encode
  rw [if_neg (by omega), if_neg (by omega), if_neg (by simp [chr_check]; omega), hcb]
  rw [if_neg (by simp; omega)]
  have v2 : 0x80 ||| (ch &&& LO_MASK_32 CONT_BITS) = 0x80 + ch % 64 := by
    rw [show LO_MASK_32 CONT_BITS = 63 from by decide, and63, lor128 _ (by omega)]
  have v1 : 0x80 ||| ((ch >>> CONT_BITS) &&& LO_MASK_32 CONT_BITS) =
      0x80 + ch / 64 % 64 := by
    rw [show LO_MASK_32 CONT_BITS = 63 from by decide, and63, lor128 _ (by omega),
      show CONT_BITS = 6 from rfl, shiftRight6_eq]
  have henc : _encode_cont str offset ch (Int.toNat 2) =
      ((str.set (offset + 2) (0x80 + ch % 64)).set (offset + 1) (0x80 + ch / 64 % 64),
        ch / 4096) := by
    show (((str.set (offset + 2) (0x80 ||| (ch &&& LO_MASK_32 CONT_BITS))).set (offset + 1)
        (0x80 ||| ((ch >>> CONT_BITS) &&& LO_MASK_32 CONT_BITS))),
        (ch >>> CONT_BITS) >>> CONT_BITS) = _
    rw [v2, v1, show CONT_BITS = 6 from rfl, shiftRight6_eq, shiftRight6_eq,
      Nat.div_div_eq_div_mul]
  rw [henc]
  have hval : (ch / 4096 &&& LO_MASK_32 (6 - Int.toNat 2)) |||
      HI_MASK_8 (8 - (6 - Int.toNat 2) - 1) = 0xE0 + ch / 4096 := by
    rw [show (6 - Int.toNat 2 : Nat) = 4 from rfl, show LO_MASK_32 4 = 15 from by decide,
      show HI_MASK_8 (8 - 4 - 1) = 0xE0 from by decide, and15,
      Nat.mod_eq_of_lt (by omega), Nat.lor_comm,
      lor_const_add 224 _ 5 (by norm_num) (by omega)]
  rw [hval]
  rfl

theorem enc4_result (ch : Nat) (str : List Nat) (offset size : Nat)
    (h1 : 0x10000 ≤ ch) (h2 : ch ≤ 0x10FFFF) (hsz : offset + 3 < size) :
    chr_encode ch str offset size =
      (Errno.EOK,
        (((str.set (offset + 3) (0x80 + ch % 64)).set (offset + 2)
            (0x80 + ch / 64 % 64)).set (offset + 1)
            (0x80 + ch / 4096 % 64)).set offset (0xF0 + ch / 262144),
        offset + 4) := by
  have hcb : _char_continuation_bytes ch = 3 := cont_bytes_3 ch h1 (by omega)
  unfold chr_encode
  rw [if_neg (by omega), if_neg (by omega), if_neg (by simp [chr_check]; omega), hcb]
  rw [if_neg (by simp; omega)]
  have v3 : 0x80 ||| (ch &&& LO_MASK_32 CONT_BITS) = 0x80 + ch % 64 := by
    rw [show LO_MASK_32 CONT_BITS = 63 from by decide, and63, lor128 _ (by omega)]
  have v2 : 0x80 ||| ((ch >>> CONT_BITS) &&& LO_MASK_32 CONT_BITS) =
      0x80 + ch / 64 % 64 := by
    rw [show LO_MASK_32 CONT_BITS = 63 from by decide, and63, lor128 _ (by omega),
      show CONT_BITS = 6 from rfl, shiftRight6_eq]
  have v1 : 0x80 ||| (((ch >>> CONT_BITS) >>> CONT_BITS) &&& LO_MASK_32 CONT_BITS) =
      0x80 + ch / 4096 % 64 := by
    rw [show LO_MASK_32 CONT_BITS = 63 from by decide, and63, lor128 _ (by omega),
      show CONT_BITS = 6 from rfl, shiftRight6_eq, shiftRight6_eq,
      Nat.div_div_eq_div_mul]
  have henc : _encode_cont str offset ch (Int.toNat 3) =
      (((str.set (offset + 3) (0x80 + ch % 64)).set (offset + 2)
          (0x80 + ch / 64 % 64)).set (offset + 1) (0x80 + ch / 4096 % 64),
        ch / 262144) := by
    show ((((str.set (offset + 3) (0x80 ||| (ch &&& LO_MASK_32 CONT_BITS))).set (offset + 2)
        (0x80 ||| ((ch >>> CONT_BITS) &&& LO_MASK_32 CONT_BITS))).set (offset + 1)
        (0x80 ||| (((ch >>> CONT_BITS) >>> CONT_BITS) &&& LO_MASK_32 CONT_BITS))),
        ((ch >>> CONT_BITS) >>> CONT_BITS) >>> CONT_BITS) = _
    rw [v3, v2, v1, show CONT_BITS = 6 from rfl, shiftRight6_eq, shiftRight6_eq,
      shiftRight6_eq, Nat.div_div_eq_div_mul, Nat.div_div_eq_div_mul]
  rw [henc]
  have hval : (ch / 262144 &&& LO_MASK_32 (6 - Int.toNat 3)) |||
      HI_MASK_8 (8 - (6 - Int.toNat 3) - 1) = 0xF0 + ch / 262144 := by
    rw [show (6 - Int.toNat 3 : Nat) = 3 from rfl, show LO_MASK_32 3 = 7 from by decide,
      show HI_MASK_8 (8 - 3 - 1) = 0xF0 from by decide, and7,
      Nat.mod_eq_of_lt (by omega), Nat.lor_comm,
      lor_const_add 240 _ 4 (by norm_num) (by omega)]
  rw [hval]
  rfl

/-- The decoder, applied at a position holding the canonical encoding of a
valid scalar (with the whole encoding inside the size limit), returns
exactly that scalar and consumes exactly its bytes. -/
theorem decode_at_enc (s : List Nat) (offset size ch : Nat)
    (hch : ch ≤ 1114111) (hns : ¬(55296 ≤ ch ∧ ch ≤ 57343))
    (hdig : ∀ i, i < (utf8Enc ch).length → s.getD (offset + i) 0 = (utf8Enc ch).getD i 0)
    (hsz : offset + (utf8Enc ch).length ≤ size) :
    _str_decode s offset size 0 = (ch, offset + (utf8Enc ch).length, 0) := by
  by_cases hA : ch < 0x80
  · have hlen : (utf8Enc ch).length = 1 := by unfold utf8Enc; rw [if_pos hA]; rfl
    have hb0 : s.getD offset 0 = ch := by
      simpa [utf8Enc, hA] using hdig 0 (by rw [hlen]; omega)
    rw [hlen] at hsz ⊢
    unfold _str_decode
    rw [if_neg (by simp only [beq_iff_eq]; omega), if_pos (beq_self_eq_true 0), hb0,
      if_pos (by simp only [_is_ascii, decide_eq_true_eq]; omega)]
  by_cases hB : ch < 0x800
  · have hlen : (utf8Enc ch).length = 2 := by unfold utf8Enc; rw [if_neg hA, if_pos hB]; rfl
    have hb0 : s.getD offset 0 = 0xC0 + ch / 64 := by
      simpa [utf8Enc, hA, hB] using hdig 0 (by rw [hlen]; omega)
    have hb1 : s.getD (offset + 1) 0 = 0x80 + ch % 64 := by
      simpa [utf8Enc, hA, hB] using hdig 1 (by rw [hlen]; omega)
    have hq : 2 ≤ ch / 64 ∧ ch / 64 < 32 := by omega
    rw [hlen] at hsz ⊢
    unfold _str_decode
    rw [if_neg (by simp only [beq_iff_eq]; omega), if_pos (beq_self_eq_true 0), hb0, hb1,
      if_neg (by simp only [_is_ascii, decide_eq_true_eq]; omega),
      if_neg (by rw [is_cont_iff]; omega),
      if_pos (by rw [is_2_byte_iff]; omega)]
    have hnsh : ((0xC0 + ch / 64) &&& 30 == 0) = false := by
      have hgen : ∀ q, 2 ≤ q → q < 32 → ((192 + q) &&& 30 == 0) = false := by decide
      exact hgen (ch / 64) hq.1 hq.2
    rw [if_neg (by rw [hnsh]; simp),
      if_pos (by
        simp only [Bool.and_eq_true, decide_eq_true_eq]
        exact ⟨by omega, by rw [is_cont_iff]; omega⟩)]
    have hv : _utf8_char2 (0xC0 + ch / 64) (0x80 + ch % 64) = ch := by
      rw [utf8_char2_val, and31]
      omega
    rw [hv]
  by_cases hC : ch < 0x10000
  · have hlen : (utf8Enc ch).length = 3 := by
      unfold utf8Enc; rw [if_neg hA, if_neg hB, if_pos hC]; rfl
    have hb0 : s.getD offset 0 = 0xE0 + ch / 4096 := by
      simpa [utf8Enc, hA, hB, hC] using hdig 0 (by rw [hlen]; omega)
    have hb1 : s.getD (offset + 1) 0 = 0x80 + ch / 64 % 64 := by
      simpa [utf8Enc, hA, hB, hC] using hdig 1 (by rw [hlen]; omega)
    have hb2 : s.getD (offset + 2) 0 = 0x80 + ch % 64 := by
      simpa [utf8Enc, hA, hB, hC] using hdig 2 (by rw [hlen]; omega)
    have hq : ch / 4096 < 16 := by omega
    rw [hlen] at hsz ⊢
    unfold _str_decode
    rw [if_neg (by simp only [beq_iff_eq]; omega), if_pos (beq_self_eq_true 0), hb0, hb1, hb2,
      if_neg (by simp only [_is_ascii, decide_eq_true_eq]; omega),
      if_neg (by rw [is_cont_iff]; omega),
      if_neg (by rw [is_2_byte_iff]; omega),
      if_pos (by rw [is_3_byte_iff]; omega),
      if_pos (by
        simp only [Bool.and_eq_true, decide_eq_true_eq]
        exact ⟨⟨by omega, by rw [is_cont_iff]; omega⟩, by rw [is_cont_iff]; omega⟩)]
    have hv : _utf8_char3 (0xE0 + ch / 4096) (0x80 + ch / 64 % 64) (0x80 + ch % 64) = ch := by
      rw [utf8_char3_val, and15]
      omega
    rw [hv]
    rw [if_neg (by
        simp only [beq_iff_eq]
        rw [show (0xFFFFF800 : Nat) = (2 ^ 21 - 1) <<< 11 from by decide,
          and_hi_eq_zero_iff _ 21 11 (by norm_num; omega)]
        omega),
      if_neg (by
        simp only [Bool.and_eq_true, decide_eq_true_eq]
        rintro ⟨ha, hbb⟩
        exact hns ⟨ha, by omega⟩)]
  · have hlen : (utf8Enc ch).length = 4 := by
      unfold utf8Enc; rw [if_neg hA, if_neg hB, if_neg hC]; rfl
    have hb0 : s.getD offset 0 = 0xF0 + ch / 262144 := by
      simpa [utf8Enc, hA, hB, hC] using hdig 0 (by rw [hlen]; omega)
    have hb1 : s.getD (offset + 1) 0 = 0x80 + ch / 4096 % 64 := by
      simpa [utf8Enc, hA, hB, hC] using hdig 1 (by rw [hlen]; omega)
    have hb2 : s.getD (offset + 2) 0 = 0x80 + ch / 64 % 64 := by
      simpa [utf8Enc, hA, hB, hC] using hdig 2 (by rw [hlen]; omega)
    have hb3 : s.getD (offset + 3) 0 = 0x80 + ch % 64 := by
      simpa [utf8Enc, hA, hB, hC] using hdig 3 (by rw [hlen]; omega)
    have hq : ch / 262144 < 5 := by omega
    rw [hlen] at hsz ⊢
    unfold _str_decode
    rw [if_neg (by simp only [beq_iff_eq]; omega), if_pos (beq_self_eq_true 0),
      hb0, hb1, hb2, hb3,
      if_neg (by simp only [_is_ascii, decide_eq_true_eq]; omega),
      if_neg (by rw [is_cont_iff]; omega),
      if_neg (by rw [is_2_byte_iff]; omega),
      if_neg (by rw [is_3_byte_iff]; omega),
      if_pos (by rw [is_4_byte_iff]; omega),
      if_pos (by
        simp only [Bool.and_eq_true, decide_eq_true_eq]
        exact ⟨⟨⟨by omega, by rw [is_cont_iff]; omega⟩, by rw [is_cont_iff]; omega⟩,
          by rw [is_cont_iff]; omega⟩)]
    have hv : _utf8_char4 (0xF0 + ch / 262144) (0x80 + ch / 4096 % 64)
        (0x80 + ch / 64 % 64) (0x80 + ch % 64) = ch := by
      rw [utf8_char4_val, and7]
      omega
    rw [hv]
    rw [if_neg (by
        simp only [beq_iff_eq]
        rw [show (0xFFFF0000 : Nat) = (2 ^ 16 - 1) <<< 16 from by decide,
          and_hi_eq_zero_iff _ 16 16 (by norm_num; omega)]
        omega),
      if_neg (by omega)]

/-- chr_encode, given a valid scalar and room, succeeds and writes exactly
the canonical encoding utf8Enc at the offset, leaving length unchanged. -/
theorem chr_encode_ok (ch : Nat) (str : List Nat) (offset size : Nat)
    (hch : ch ≤ 1114111) (hsz : offset + 4 ≤ size) (hlen : size ≤ str.length) :
    (chr_encode ch str offset size).1 = Errno.EOK ∧
    (chr_encode ch str offset size).2.2 = offset + (utf8Enc ch).length ∧
    ((chr_encode ch str offset size).2.1).length = str.length ∧
    ∀ i, i < (utf8Enc ch).length →
      ((chr_encode ch str offset size).2.1).getD (offset + i) 0 = (utf8Enc ch).getD i 0 := by
  have hl : offset + 3 < str.length := by omega
  by_cases hA : ch < 0x80
  · rw [enc1_result ch str offset size hA (by omega)]
    have hu : utf8Enc ch = [ch] := by unfold utf8Enc; rw [if_pos hA]
    rw [hu]
    refine ⟨rfl, rfl, by simp, ?_⟩
    dsimp only
    intro i hi
    simp only [List.length_cons, List.length_nil] at hi
    interval_cases i
    · have e0 : offset + 0 = offset := rfl
      rw [e0, getD_set_self _ _ _ (by omega)]
      rfl
  by_cases hB : ch < 0x800
  · rw [enc2_result ch str offset size (by omega) hB (by omega)]
    have hu : utf8Enc ch = [0xC0 + ch / 64, 0x80 + ch % 64] := by
      unfold utf8Enc; rw [if_neg hA, if_pos hB]
    rw [hu]
    refine ⟨rfl, rfl, by simp, ?_⟩
    dsimp only
    intro i hi
    simp only [List.length_cons, List.length_nil] at hi
    interval_cases i
    · have e0 : offset + 0 = offset := rfl
      rw [e0, getD_set_self _ _ _
        (show offset < (str.set (offset + 1) (0x80 + ch % 64)).length by simp; omega)]
      rfl
    · rw [getD_set_ne _ _ _ _ (by omega), getD_set_self _ _ _
        (show offset + 1 < str.length by omega)]
      rfl
  by_cases hC : ch < 0x10000
  · rw [enc3_result ch str offset size (by omega) hC (by omega)]
    have hu : utf8Enc ch = [0xE0 + ch / 4096, 0x80 + ch / 64 % 64, 0x80 + ch % 64] := by
      unfold utf8Enc; rw [if_neg hA, if_neg hB, if_pos hC]
    rw [hu]
    refine ⟨rfl, rfl, by simp, ?_⟩
    dsimp only
    intro i hi
    simp only [List.length_cons, List.length_nil] at hi
    interval_cases i
    · have e0 : offset + 0 = offset := rfl
      rw [e0, getD_set_self _ _ _
        (show offset < ((str.set (offset + 2) (0x80 + ch % 64)).set (offset + 1)
          (0x80 + ch / 64 % 64)).length by simp; omega)]
      rfl
    · rw [getD_set_ne _ _ _ _ (by omega), getD_set_self _ _ _
        (show offset + 1 < (str.set (offset + 2) (0x80 + ch % 64)).length by simp; omega)]
      rfl
    · rw [getD_set_ne _ _ _ _ (by omega), getD_set_ne _ _ _ _ (by omega),
        getD_set_self _ _ _ (show offset + 2 < str.length by omega)]
      rfl
  · rw [enc4_result ch str offset size (by omega) (by omega) (by omega)]
    have hu : utf8Enc ch =
        [0xF0 + ch / 262144, 0x80 + ch / 4096 % 64, 0x80 + ch / 64 % 64, 0x80 + ch % 64] := by
      unfold utf8Enc; rw [if_neg hA, if_neg hB, if_neg hC]
    rw [hu]
    refine ⟨rfl, rfl, by simp, ?_⟩
    dsimp only
    intro i hi
    simp only [List.length_cons, List.length_nil] at hi
    interval_cases i
    · have e0 : offset + 0 = offset := rfl
      rw [e0, getD_set_self _ _ _
        (show offset < (((str.set (offset + 3) (0x80 + ch % 64)).set (offset + 2)
          (0x80 + ch / 64 % 64)).set (offset + 1) (0x80 + ch / 4096 % 64)).length by
            simp; omega)]
      rfl
    · rw [getD_set_ne _ _ _ _ (by omega), getD_set_self _ _ _
        (show offset + 1 < ((str.set (offset + 3) (0x80 + ch % 64)).set (offset + 2)
          (0x80 + ch / 64 % 64)).length by simp; omega)]
      rfl
    · rw [getD_set_ne _ _ _ _ (by omega), getD_set_ne _ _ _ _ (by omega),
        getD_set_self _ _ _
          (show offset + 2 < (str.set (offset + 3) (0x80 + ch % 64)).length by
            simp; omega)]
      rfl
    · rw [getD_set_ne _ _ _ _ (by omega), getD_set_ne _ _ _ _ (by omega),
        getD_set_ne _ _ _ _ (by omega), getD_set_self _ _ _
          (show offset + 3 < str.length by omega)]
      rfl

theorem utf8Enc_length_le (ch : Nat) : (utf8Enc ch).length ≤ 4 := by
  unfold utf8Enc
  split_ifs <;> simp

/-- C1: for every scalar outside the surrogate range, encoding with
chr_encode into a sufficiently large buffer succeeds, and decoding the
resulting bytes with str_decode from offset 0 yields exactly that scalar
with the cursor advanced over exactly the bytes written. -/
theorem encode_decode_roundtrip (ch : Nat) (dest : List Nat) (size : Nat)
    (h1 : ch ≤ 0x10FFFF) (h2 : ¬(0xD800 ≤ ch ∧ ch ≤ 0xDFFF))
    (h3 : 4 ≤ size) (h4 : size ≤ dest.length) :
    (chr_encode ch dest 0 size).1 = Errno.EOK ∧
    str_decode (chr_encode ch dest 0 size).2.1 0 size =
      (ch, (chr_encode ch dest 0 size).2.2) := by
  obtain ⟨hok, hoff, hlen, hdig⟩ := chr_encode_ok ch dest 0 size h1 (by omega) h4
  have hlen4 := utf8Enc_length_le ch
  have hdec := decode_at_enc (chr_encode ch dest 0 size).2.1 0 size ch h1 h2
    (fun i hi => by simpa using hdig i hi) (by omega)
  refine ⟨hok, ?_⟩
  unfold str_decode
  rw [hdec, if_neg (by simp [CHAR_INVALID]; omega)]
  dsimp only
  rw [hoff]

/-- C1 witness: the round trip instantiated at the scalar 0x10000. -/
theorem encode_decode_roundtrip_witness :
    ((0x10000 : Nat) ≤ 0x10FFFF ∧ ¬((0xD800 : Nat) ≤ 0x10000 ∧ (0x10000 : Nat) ≤ 0xDFFF) ∧
      (4 : Nat) ≤ 4 ∧ (4 : Nat) ≤ ([9, 9, 9, 9] : List Nat).length) ∧
    ((chr_encode 0x10000 [9, 9, 9, 9] 0 4).1 = Errno.EOK ∧
      str_decode (chr_encode 0x10000 [9, 9, 9, 9] 0 4).2.1 0 4 =
        (0x10000, (chr_encode 0x10000 [9, 9, 9, 9] 0 4).2.2)) :=
  ⟨by decide, encode_decode_roundtrip 0x10000 [9, 9, 9, 9] 4 (by decide) (by decide)
    (by decide) (by decide)⟩

/-! ### Maximal-subsequence decoding infrastructure -/

theorem decode_progress (s : List Nat) (offset size : Nat) (h : offset < size) :
    offset + 1 ≤ (_str_decode s offset size 0).2.1 := by
  unfold _str_decode
  rw [if_neg (by simp only [beq_iff_eq]; omega), if_pos (beq_self_eq_true 0)]
  split_ifs <;> (try dsimp only) <;>
    first
      | omega
      | (have h := cont_loop_mono s (size - (offset + 1)) (offset + 1)
          (s.getD offset 0 ^^^ 192)
         omega)
      | (have h := cont_loop_mono s (size - (offset + 1)) (offset + 1)
          (s.getD offset 0 ^^^ 64736)
         omega)
      | (have h := cont_loop_mono s (size - (offset + 1)) (offset + 1)
          (s.getD offset 0 ^^^ 65280)
         omega)

theorem decodeList_fuel_eq :
    ∀ n (s : List Nat), s.length ≤ n →
      ∀ fuel1 fuel2, s.length ≤ fuel1 → s.length ≤ fuel2 →
        _decodeList s fuel1 = _decodeList s fuel2 := by
  intro n
  induction n with
  | zero =>
    intro s hs fuel1 fuel2 h1 h2
    have : s = [] := List.length_eq_zero.mp (by omega)
    subst this
    cases fuel1 <;> cases fuel2 <;> simp [_decodeList]
  | succ m ih =>
    intro s hs fuel1 fuel2 h1 h2
    rcases s with _ | ⟨b, t⟩
    · cases fuel1 <;> cases fuel2 <;> simp [_decodeList]
    rcases fuel1 with _ | f1
    · simp at h1
    rcases fuel2 with _ | f2
    · simp at h2
    simp only [_decodeList, List.isEmpty_cons, Bool.false_eq_true, if_false]
    have hprog := decode_progress (b :: t) 0 (b :: t).length (by simp)
    have hle := decode_bounds (b :: t) 0 (b :: t).length 0 (by omega)
    congr 1
    apply ih <;>
      simp only [List.length_cons, List.length_drop] at hs h1 h2 hprog hle ⊢ <;>
      omega

/-- One step of decodeList on a nonempty buffer. -/
theorem decodeList_cons (s : List Nat) (hne : s ≠ []) :
    decodeList s =
      (if (_str_decode s 0 s.length 0).1 == CHAR_INVALID ∨
          (_str_decode s 0 s.length 0).2.2 ≠ 0 then none
        else some (_str_decode s 0 s.length 0).1)
        :: decodeList (s.drop (_str_decode s 0 s.length 0).2.1) := by
  unfold decodeList
  rcases hh : s with _ | ⟨b, t⟩
  · exact absurd hh hne
  rw [← hh]
  have hlen : s.length = (s.length - 1) + 1 := by
    rw [hh]
    simp
  rw [hlen]
  simp only [_decodeList]
  rw [if_neg (by rw [hh]; simp)]
  rw [← hlen]
  congr 1
  · split_ifs with hc1 <;> simp_all
  · have hprog := decode_progress s 0 s.length (by rw [hh]; simp)
    have := List.length_drop ((_str_decode s 0 s.length 0).2.1) s
    apply decodeList_fuel_eq (s.length) _ (by omega) _ _ (by omega) (by omega)

theorem utf8Enc_length_pos (ch : Nat) : 0 < (utf8Enc ch).length := by
  unfold utf8Enc
  split_ifs <;> simp

/-- Indexing an append on the left part reads the left list. -/
theorem getD_append_left (l1 l2 : List Nat) (i : Nat) (h : i < l1.length) :
    (l1 ++ l2).getD i 0 = l1.getD i 0 := by
  rw [List.getD_eq_getElem?_getD, List.getD_eq_getElem?_getD, List.getElem?_append_left h]

/-- Decoding a buffer that starts with the canonical encoding of a valid
scalar yields that scalar followed by the decode of the remainder. -/
theorem decodeList_cons_enc (c : Nat) (rest : List Nat) (h1 : c ≤ 1114111)
    (h2 : ¬(55296 ≤ c ∧ c ≤ 57343)) :
    decodeList (utf8Enc c ++ rest) = some c :: decodeList rest := by
  have hlen : (utf8Enc c).length ≤ (utf8Enc c ++ rest).length := by simp
  have hne : utf8Enc c ++ rest ≠ [] := by
    intro h
    have hl := congrArg List.length h
    simp only [List.length_append, List.length_nil] at hl
    have := utf8Enc_length_pos c
    omega
  have hdec := decode_at_enc (utf8Enc c ++ rest) 0 (utf8Enc c ++ rest).length c h1 h2
    (fun i hi => by
      have := getD_append_left (utf8Enc c) rest i hi
      simpa using this)
    (by simp)
  rw [decodeList_cons _ hne, hdec]
  rw [if_neg (by
    rintro (hc | hc)
    · simp only [beq_iff_eq] at hc
      try dsimp only at hc
      unfold CHAR_INVALID at hc
      omega
    · exact hc (by rfl))]
  have hz : (0 : Nat) + (utf8Enc c).length = (utf8Enc c).length := by omega
  dsimp only
  rw [hz, List.drop_left]

theorem validScalar_iff (c : Nat) :
    ValidScalar c ↔ (c ≤ 1114111 ∧ ¬(55296 ≤ c ∧ c ≤ 57343)) := Iff.rfl

set_option maxRecDepth 8000 in
theorem and30_lower : ∀ b, b < 256 → ((b &&& 30 == 0) = false) → 2 ≤ b % 32 := by decide

set_option maxRecDepth 8000 in
theorem nonshort3_extract : ∀ b, b < 256 → _is_continuation b = true →
    _is_non_shortest 64512 b = false → 32 ≤ b % 64 := by decide

set_option maxRecDepth 8000 in
theorem nonshort4_extract : ∀ b, b < 256 → _is_continuation b = true →
    _is_non_shortest 65520 b = false → 16 ≤ b % 64 := by decide

/-- The 2-byte resumable path, entered only when the fast-path condition
failed, can never complete cleanly in the same call: it rejects the input
or leaves a nonzero state behind. -/
theorem loop_2byte_nf (s : List Nat) (size off x : Nat) (hx1 : 2 ≤ x) (hx2 : x ≤ 31)
    (hnf : ¬(off < size ∧ _is_continuation (s.getD off 0) = true)) :
    (_decode_cont_loop s (size - off) off x).1 = CHAR_INVALID ∨
    (_decode_cont_loop s (size - off) off x).2.2 ≠ 0 := by
  rcases hg : size - off with _ | g1
  · right
    simp only [_decode_cont_loop]
    omega
  simp only [_decode_cont_loop]
  split_ifs with hc hmsb
  · left; rfl
  · exfalso
    obtain ⟨hcont, -, -⟩ := loop_checks_pass _ _ hc
    exact hnf ⟨by omega, hcont⟩
  · exfalso
    apply hmsb
    simp only [beq_iff_eq, and32768]
    omega

/-- The 3-byte resumable path, entered only when its fast-path condition
failed, rejects the input or leaves a nonzero state. -/
theorem loop_3byte_nf (s : List Nat) (size off x : Nat) (hx : x ≤ 15)
    (h256 : ∀ b ∈ s, b < 256)
    (hnf : ¬(off + 1 < size ∧ _is_continuation (s.getD off 0) = true ∧
      _is_continuation (s.getD (off + 1) 0) = true)) :
    (_decode_cont_loop s (size - off) off (64512 + x)).1 = CHAR_INVALID ∨
    (_decode_cont_loop s (size - off) off (64512 + x)).2.2 ≠ 0 := by
  have hb1 := getD_lt_256 s h256 off
  rcases hg : size - off with _ | g1
  · right
    simp only [_decode_cont_loop]
    omega
  simp only [_decode_cont_loop, show UTF8_MASK_CONT = 63 from rfl]
  split_ifs with hc hmsb
  · left; rfl
  · exfalso
    simp only [beq_iff_eq, and32768] at hmsb
    omega
  obtain ⟨hcont1, hns1, -⟩ := loop_checks_pass _ _ hc
  have hst1 : ((64512 + x) <<< 6 ||| (s.getD off 0 &&& 63)) % 65536
      = 64 * x + s.getD off 0 % 64 := by
    rw [and63, lor_shift_add _ _ 6 (by omega)]
    have : (64512 + x) * 2 ^ 6 = 63 * 65536 + 64 * x := by ring_nf
    omega
  rw [hst1]
  have hlow : x = 0 → 32 ≤ s.getD off 0 % 64 := by
    intro hx0
    rw [hx0] at hns1
    exact nonshort3_extract _ hb1 hcont1 (by simpa using hns1)
  rcases g1 with _ | g2
  · right
    simp only [_decode_cont_loop]
    rcases Nat.eq_zero_or_pos x with hx0 | hx0
    · have := hlow hx0
      omega
    · omega
  simp only [_decode_cont_loop, show UTF8_MASK_CONT = 63 from rfl]
  split_ifs with hc2 hmsb2
  · left; rfl
  · exfalso
    obtain ⟨hcont2, -, -⟩ := loop_checks_pass _ _ hc2
    exact hnf ⟨by omega, hcont1, hcont2⟩
  · exfalso
    apply hmsb2
    simp only [beq_iff_eq, and32768]
    omega

/-- The 4-byte resumable path, entered only when its fast-path condition
failed, rejects the input or leaves a nonzero state. -/
theorem loop_4byte_nf (s : List Nat) (size off x : Nat) (hx : x ≤ 7)
    (h256 : ∀ b ∈ s, b < 256)
    (hnf : ¬(off + 2 < size ∧ _is_continuation (s.getD off 0) = true ∧
      _is_continuation (s.getD (off + 1) 0) = true ∧
      _is_continuation (s.getD (off + 2) 0) = true)) :
    (_decode_cont_loop s (size - off) off (65520 + x)).1 = CHAR_INVALID ∨
    (_decode_cont_loop s (size - off) off (65520 + x)).2.2 ≠ 0 := by
  have hb1 := getD_lt_256 s h256 off
  rcases hg : size - off with _ | g1
  · right
    simp only [_decode_cont_loop]
    omega
  simp only [_decode_cont_loop, show UTF8_MASK_CONT = 63 from rfl]
  split_ifs with hc hmsb
  · left; rfl
  · exfalso
    simp only [beq_iff_eq, and32768] at hmsb
    omega
  obtain ⟨hcont1, hns1, -⟩ := loop_checks_pass _ _ hc
  have hst1 : ((65520 + x) <<< 6 ||| (s.getD off 0 &&& 63)) % 65536
      = 64512 + 64 * x + s.getD off 0 % 64 := by
    rw [and63, lor_shift_add _ _ 6 (by omega)]
    have : (65520 + x) * 2 ^ 6 = 63 * 65536 + 64512 + 64 * x := by ring_nf
    omega
  rw [hst1]
  have hlow : x = 0 → 16 ≤ s.getD off 0 % 64 := by
    intro hx0
    rw [hx0] at hns1
    exact nonshort4_extract _ hb1 hcont1 (by simpa using hns1)
  rcases g1 with _ | g2
  · right
    simp only [_decode_cont_loop]
    omega
  simp only [_decode_cont_loop, show UTF8_MASK_CONT = 63 from rfl]
  split_ifs with hc2 hmsb2
  · left; rfl
  · exfalso
    simp only [beq_iff_eq, and32768] at hmsb2
    omega
  obtain ⟨hcont2, -, -⟩ := loop_checks_pass _ _ hc2
  have hst2 : ((64512 + 64 * x + s.getD off 0 % 64) <<< 6 ||| (s.getD (off + 1) 0 &&& 63))
      % 65536 = 4096 * x + 64 * (s.getD off 0 % 64) + s.getD (off + 1) 0 % 64 := by
    rw [and63, lor_shift_add _ _ 6 (by omega)]
    have : (64512 + 64 * x + s.getD off 0 % 64) * 2 ^ 6 =
        63 * 65536 + 4096 * x + 64 * (s.getD off 0 % 64) := by ring_nf
    omega
  rw [hst2]
  rcases g2 with _ | g3
  · right
    simp only [_decode_cont_loop]
    rcases Nat.eq_zero_or_pos x with hx0 | hx0
    · have := hlow hx0
      omega
    · omega
  simp only [_decode_cont_loop, show UTF8_MASK_CONT = 63 from rfl]
  split_ifs with hc3 hmsb3
  · left; rfl
  · exfalso
    obtain ⟨hcont3, -, -⟩ := loop_checks_pass _ _ hc3
    exact hnf ⟨by omega, hcont1, hcont2, hcont3⟩
  · exfalso
    apply hmsb3
    simp only [beq_iff_eq, and32768]
    omega

/-- A clean one-shot decode of the front of a byte buffer, when it neither
reports an invalid sequence nor leaves a dirty state, returns a valid
scalar and consumes exactly the canonical encoding of that scalar. -/
theorem decode_exact (s : List Nat) (h256 : ∀ b ∈ s, b < 256) (hne : s ≠ [])
    (hok : (_str_decode s 0 s.length 0).1 ≠ CHAR_INVALID)
    (hst : (_str_decode s 0 s.length 0).2.2 = 0) :
    ValidScalar (_str_decode s 0 s.length 0).1 ∧
    s.take (_str_decode s 0 s.length 0).2.1 =
      utf8Enc (_str_decode s 0 s.length 0).1 := by
  have hb0 := getD_lt_256 s h256 0
  have hb1 := getD_lt_256 s h256 1
  have hb2 := getD_lt_256 s h256 2
  have hb3 := getD_lt_256 s h256 3
  have hpos : 0 < s.length := List.length_pos.mpr hne
  unfold _str_decode at hok hst ⊢
  simp only [Nat.zero_add] at hok hst ⊢
  rw [if_neg (by simp only [beq_iff_eq]; omega), if_pos (beq_self_eq_true 0)]
    at hok hst ⊢
  by_cases hA : _is_ascii (s.getD 0 0)
  · rw [if_pos hA] at hok hst ⊢
    simp only [_is_ascii, decide_eq_true_eq] at hA
    dsimp only
    constructor
    · rw [validScalar_iff]
      omega
    · have henc : utf8Enc (s.getD 0 0) = [s.getD 0 0] := by
        unfold utf8Enc
        rw [if_pos hA]
      rw [henc]
      rcases s with _ | ⟨a, t⟩
      · simp at hpos
      · simp [List.getD]
  rw [if_neg hA] at hok hst ⊢
  by_cases hC : _is_continuation (s.getD 0 0)
  · rw [if_pos hC] at hok
    exact (hok rfl).elim
  rw [if_neg hC] at hok hst ⊢
  by_cases h2 : _is_2_byte (s.getD 0 0)
  · rw [if_pos h2] at hok hst ⊢
    have h2r := (is_2_byte_iff _).mp h2
    by_cases hsh : (s.getD 0 0 &&& 30 == 0) = true
    · rw [if_pos hsh] at hok
      exact (hok rfl).elim
    rw [if_neg hsh] at hok hst ⊢
    have hlow := and30_lower _ hb0 (Bool.eq_false_iff.mpr hsh)
    by_cases hf : (decide (1 < s.length) && _is_continuation (s.getD 1 0)) = true
    · rw [if_pos hf] at hok hst ⊢
      simp only [Bool.and_eq_true, decide_eq_true_eq] at hf
      have hcr := (is_cont_iff _).mp hf.2
      dsimp only
      have hcv : _utf8_char2 (s.getD 0 0) (s.getD 1 0)
          = s.getD 0 0 % 32 * 64 + s.getD 1 0 % 64 := by
        rw [utf8_char2_val, and31]
      rw [hcv]
      constructor
      · rw [validScalar_iff]
        omega
      · have henc : utf8Enc (s.getD 0 0 % 32 * 64 + s.getD 1 0 % 64)
            = [s.getD 0 0, s.getD 1 0] := by
          unfold utf8Enc
          rw [if_neg (by omega), if_pos (by omega)]
          have e1 : 192 + (s.getD 0 0 % 32 * 64 + s.getD 1 0 % 64) / 64 = s.getD 0 0 := by
            omega
          have e2 : 128 + (s.getD 0 0 % 32 * 64 + s.getD 1 0 % 64) % 64 = s.getD 1 0 := by
            omega
          rw [e1, e2]
        rw [henc]
        obtain ⟨hlt, -⟩ := hf
        rcases s with _ | ⟨a, t⟩
        · simp at hpos
        rcases t with _ | ⟨a1, t1⟩
        · simp at hlt
        · simp [List.getD]
    · rw [if_neg hf] at hok hst
      rw [xor_c0 _ hb0 h2] at hok hst
      rcases loop_2byte_nf s s.length 1 (s.getD 0 0 - 192) (by omega) (by omega)
          (by
            rintro ⟨hlt, hcont⟩
            exact hf (by
              simp only [Bool.and_eq_true, decide_eq_true_eq]
              exact ⟨hlt, hcont⟩)) with hr | hr
      · exact (hok hr).elim
      · exact (hr hst).elim
  rw [if_neg h2] at hok hst ⊢
  by_cases h3 : _is_3_byte (s.getD 0 0)
  · rw [if_pos h3] at hok hst ⊢
    have h3r := (is_3_byte_iff _).mp h3
    by_cases hf : (decide (2 < s.length) && _is_continuation (s.getD 1 0) &&
        _is_continuation (s.getD 2 0)) = true
    · rw [if_pos hf] at hok hst ⊢
      simp only [Bool.and_eq_true, decide_eq_true_eq] at hf
      obtain ⟨⟨hlt, hc1⟩, hc2⟩ := hf
      have hc1r := (is_cont_iff _).mp hc1
      have hc2r := (is_cont_iff _).mp hc2
      have hcv : _utf8_char3 (s.getD 0 0) (s.getD 1 0) (s.getD 2 0)
          = s.getD 0 0 % 16 * 4096 + s.getD 1 0 % 64 * 64 + s.getD 2 0 % 64 := by
        rw [utf8_char3_val, and15]
      by_cases hm : (_utf8_char3 (s.getD 0 0) (s.getD 1 0) (s.getD 2 0) &&&
          0xFFFFF800 == 0) = true
      · rw [if_pos hm] at hok
        exact (hok rfl).elim
      rw [if_neg hm] at hok hst ⊢
      have hmval : _utf8_char3 (s.getD 0 0) (s.getD 1 0) (s.getD 2 0) &&& 0xFFFFF800 = 0
          ↔ _utf8_char3 (s.getD 0 0) (s.getD 1 0) (s.getD 2 0) < 2048 := by
        rw [show (0xFFFFF800 : Nat) = (2 ^ 21 - 1) <<< 11 from by
          rw [Nat.shiftLeft_eq]; norm_num]
        exact and_hi_eq_zero_iff _ 21 11 (by rw [hcv]; norm_num; omega)
      have hge : ¬(_utf8_char3 (s.getD 0 0) (s.getD 1 0) (s.getD 2 0) < 2048) :=
        fun hlt2 => hm (beq_iff_eq.mpr (hmval.mpr hlt2))
      by_cases hs : (decide (_utf8_char3 (s.getD 0 0) (s.getD 1 0) (s.getD 2 0) ≥ 0xD800) &&
          decide (_utf8_char3 (s.getD 0 0) (s.getD 1 0) (s.getD 2 0) < 0xE000)) = true
      · rw [if_pos hs] at hok
        exact (hok rfl).elim
      rw [if_neg hs] at hok hst ⊢
      dsimp only
      have hnsur : ¬(55296 ≤ _utf8_char3 (s.getD 0 0) (s.getD 1 0) (s.getD 2 0) ∧
          _utf8_char3 (s.getD 0 0) (s.getD 1 0) (s.getD 2 0) ≤ 57343) := by
        rintro ⟨ha, hbb⟩
        apply hs
        simp only [Bool.and_eq_true, decide_eq_true_eq]
        exact ⟨ha, by omega⟩
      rw [hcv] at hge hnsur ⊢
      constructor
      · rw [validScalar_iff]
        constructor
        · omega
        · exact hnsur
      · have henc : utf8Enc (s.getD 0 0 % 16 * 4096 + s.getD 1 0 % 64 * 64 + s.getD 2 0 % 64)
            = [s.getD 0 0, s.getD 1 0, s.getD 2 0] := by
          unfold utf8Enc
          rw [if_neg (by omega), if_neg (by omega), if_pos (by omega)]
          have e1 : 224 + (s.getD 0 0 % 16 * 4096 + s.getD 1 0 % 64 * 64 +
              s.getD 2 0 % 64) / 4096 = s.getD 0 0 := by omega
          have e2 : 128 + (s.getD 0 0 % 16 * 4096 + s.getD 1 0 % 64 * 64 +
              s.getD 2 0 % 64) / 64 % 64 = s.getD 1 0 := by omega
          have e3 : 128 + (s.getD 0 0 % 16 * 4096 + s.getD 1 0 % 64 * 64 +
              s.getD 2 0 % 64) % 64 = s.getD 2 0 := by omega
          rw [e1, e2, e3]
        rw [henc]
        rcases s with _ | ⟨a, t⟩
        · simp at hpos
        rcases t with _ | ⟨a1, t1⟩
        · simp at hlt
        rcases t1 with _ | ⟨a2, t2⟩
        · simp at hlt
        · simp [List.getD]
    · rw [if_neg hf] at hok hst
      rw [xor_e0 _ hb0 h3] at hok hst
      rcases loop_3byte_nf s s.length 1 (s.getD 0 0 - 224) (by omega) h256
          (by
            rintro ⟨hlt, hd1, hd2⟩
            exact hf (by
              simp only [Bool.and_eq_true, decide_eq_true_eq]
              exact ⟨⟨by omega, hd1⟩, hd2⟩)) with hr | hr
      · exact (hok hr).elim
      · exact (hr hst).elim
  rw [if_neg h3] at hok hst ⊢
  by_cases h4 : _is_4_byte (s.getD 0 0)
  · rw [if_pos h4] at hok hst ⊢
    have h4r := (is_4_byte_iff _).mp h4
    by_cases hf : (decide (3 < s.length) && _is_continuation (s.getD 1 0) &&
        _is_continuation (s.getD 2 0) && _is_continuation (s.getD 3 0)) = true
    · rw [if_pos hf] at hok hst ⊢
      simp only [Bool.and_eq_true, decide_eq_true_eq] at hf
      obtain ⟨⟨⟨hlt, hc1⟩, hc2⟩, hc3⟩ := hf
      have hc1r := (is_cont_iff _).mp hc1
      have hc2r := (is_cont_iff _).mp hc2
      have hc3r := (is_cont_iff _).mp hc3
      have hcv : _utf8_char4 (s.getD 0 0) (s.getD 1 0) (s.getD 2 0) (s.getD 3 0)
          = s.getD 0 0 % 8 * 262144 + s.getD 1 0 % 64 * 4096 +
            s.getD 2 0 % 64 * 64 + s.getD 3 0 % 64 := by
        rw [utf8_char4_val, and7]
      by_cases hm : (_utf8_char4 (s.getD 0 0) (s.getD 1 0) (s.getD 2 0) (s.getD 3 0) &&&
          0xFFFF0000 == 0) = true
      · rw [if_pos hm] at hok
        exact (hok rfl).elim
      rw [if_neg hm] at hok hst ⊢
      have hmval : _utf8_char4 (s.getD 0 0) (s.getD 1 0) (s.getD 2 0) (s.getD 3 0) &&&
          0xFFFF0000 = 0
          ↔ _utf8_char4 (s.getD 0 0) (s.getD 1 0) (s.getD 2 0) (s.getD 3 0) < 65536 := by
        rw [show (0xFFFF0000 : Nat) = (2 ^ 16 - 1) <<< 16 from by
          rw [Nat.shiftLeft_eq]; norm_num]
        exact and_hi_eq_zero_iff _ 16 16 (by rw [hcv]; norm_num; omega)
      have hge : ¬(_utf8_char4 (s.getD 0 0) (s.getD 1 0) (s.getD 2 0) (s.getD 3 0)
          < 65536) := fun hlt2 => hm (beq_iff_eq.mpr (hmval.mpr hlt2))
      by_cases hr : _utf8_char4 (s.getD 0 0) (s.getD 1 0) (s.getD 2 0) (s.getD 3 0)
          ≥ 0x110000
      · rw [if_pos hr] at hok
        exact (hok rfl).elim
      rw [if_neg hr] at hok hst ⊢
      dsimp only
      rw [hcv] at hge hr ⊢
      constructor
      · rw [validScalar_iff]
        omega
      · have henc : utf8Enc (s.getD 0 0 % 8 * 262144 + s.getD 1 0 % 64 * 4096 +
            s.getD 2 0 % 64 * 64 + s.getD 3 0 % 64)
            = [s.getD 0 0, s.getD 1 0, s.getD 2 0, s.getD 3 0] := by
          unfold utf8Enc
          rw [if_neg (by omega), if_neg (by omega), if_neg (by omega)]
          have e1 : 240 + (s.getD 0 0 % 8 * 262144 + s.getD 1 0 % 64 * 4096 +
              s.getD 2 0 % 64 * 64 + s.getD 3 0 % 64) / 262144 = s.getD 0 0 := by omega
          have e2 : 128 + (s.getD 0 0 % 8 * 262144 + s.getD 1 0 % 64 * 4096 +
              s.getD 2 0 % 64 * 64 + s.getD 3 0 % 64) / 4096 % 64 = s.getD 1 0 := by omega
          have e3 : 128 + (s.getD 0 0 % 8 * 262144 + s.getD 1 0 % 64 * 4096 +
              s.getD 2 0 % 64 * 64 + s.getD 3 0 % 64) / 64 % 64 = s.getD 2 0 := by omega
          have e4 : 128 + (s.getD 0 0 % 8 * 262144 + s.getD 1 0 % 64 * 4096 +
              s.getD 2 0 % 64 * 64 + s.getD 3 0 % 64) % 64 = s.getD 3 0 := by omega
          rw [e1, e2, e3, e4]
        rw [henc]
        rcases s with _ | ⟨a, t⟩
        · simp at hpos
        rcases t with _ | ⟨a1, t1⟩
        · simp at hlt
        rcases t1 with _ | ⟨a2, t2⟩
        · simp at hlt
        rcases t2 with _ | ⟨a3, t3⟩
        · simp at hlt
        · simp [List.getD]
    · rw [if_neg hf] at hok hst
      rw [xor_f0 _ hb0 h4] at hok hst
      rcases loop_4byte_nf s s.length 1 (s.getD 0 0 - 240) (by omega) h256
          (by
            rintro ⟨hlt, hd1, hd2, hd3⟩
            exact hf (by
              simp only [Bool.and_eq_true, decide_eq_true_eq]
              exact ⟨⟨⟨by omega, hd1⟩, hd2⟩, hd3⟩)) with hrr | hrr
      · exact (hok hrr).elim
      · exact (hrr hst).elim
  rw [if_neg h4] at hok
  exact (hok rfl).elim

/-- Decomposition of a nonempty well-formed buffer: it starts with the
canonical encoding of a valid scalar, the decoded scalar sequence starts
with that scalar, and the strictly shorter remainder is well-formed. -/
theorem wf_decomp (s : List Nat) (h256 : ∀ b ∈ s, b < 256) (hne : s ≠ [])
    (hwf : wellFormed s = true) :
    ∃ c rest, ValidScalar c ∧ s = utf8Enc c ++ rest ∧
      decodeList s = some c :: decodeList rest ∧
      wellFormed rest = true ∧ rest.length < s.length := by
  have hcons := decodeList_cons s hne
  have hbounds := decode_bounds s 0 s.length 0 (Nat.zero_le _)
  have hprog := decode_progress s 0 s.length (List.length_pos.mpr hne)
  unfold wellFormed at hwf
  rw [hcons] at hwf
  simp only [List.all_cons, Bool.and_eq_true] at hwf
  obtain ⟨hhd, htl⟩ := hwf
  have hcond : ¬(((_str_decode s 0 s.length 0).1 == CHAR_INVALID) = true ∨
      (_str_decode s 0 s.length 0).2.2 ≠ 0) := by
    intro h
    rw [if_pos h] at hhd
    simp at hhd
  have hok : (_str_decode s 0 s.length 0).1 ≠ CHAR_INVALID :=
    fun h => hcond (Or.inl (beq_iff_eq.mpr h))
  have hst : (_str_decode s 0 s.length 0).2.2 = 0 := by
    by_contra h
    exact hcond (Or.inr h)
  obtain ⟨hvalid, htake⟩ := decode_exact s h256 hne hok hst
  have hlen : (utf8Enc (_str_decode s 0 s.length 0).1).length
      = (_str_decode s 0 s.length 0).2.1 := by
    rw [← htake, List.length_take]
    omega
  refine ⟨(_str_decode s 0 s.length 0).1, s.drop (_str_decode s 0 s.length 0).2.1,
    hvalid, ?_, ?_, ?_, ?_⟩
  · rw [← htake]
    exact (List.take_append_drop _ s).symm
  · rw [hcons, if_neg hcond]
  · unfold wellFormed
    exact htl
  · rw [List.length_drop]
    omega

/-- Prepending the canonical encoding of a valid scalar preserves
well-formedness. -/
theorem wf_cons_enc (c : Nat) (tail : List Nat) (h1 : c ≤ 1114111)
    (h2 : ¬(55296 ≤ c ∧ c ≤ 57343)) (hwf : wellFormed tail = true) :
    wellFormed (utf8Enc c ++ tail) = true := by
  unfold wellFormed at hwf ⊢
  rw [decodeList_cons_enc c tail h1 h2]
  simp only [List.all_cons, Bool.and_eq_true]
  exact ⟨rfl, hwf⟩

theorem scalars_of_cons (s rest : List Nat) (c : Nat)
    (h : decodeList s = some c :: decodeList rest) :
    scalars s = c :: scalars rest := by
  unfold scalars
  rw [h]
  rfl

/-! ### Sanitize: stepping over kept characters -/

set_option maxRecDepth 8000 in
theorem cont_bytes_b0 : ∀ b, b < 128 → _continuation_bytes b = 0 := by decide

set_option maxRecDepth 8000 in
theorem cont_bytes_b1 : ∀ b, b < 256 → 192 ≤ b → b ≤ 223 → _continuation_bytes b = 1 := by
  decide

set_option maxRecDepth 8000 in
theorem cont_bytes_b2 : ∀ b, b < 256 → 224 ≤ b → b ≤ 239 → _continuation_bytes b = 2 := by
  decide

set_option maxRecDepth 8000 in
theorem cont_bytes_b3 : ∀ b, b < 256 → 240 ≤ b → b ≤ 247 → _continuation_bytes b = 3 := by
  decide

set_option maxRecDepth 8000 in
theorem cont_bytes_bneg : ∀ b, b < 256 → ((128 ≤ b ∧ b ≤ 191) ∨ 248 ≤ b) →
    _continuation_bytes b = -1 := by decide

theorem is_cont_128 : ∀ m, m < 64 → _is_continuation (128 + m) = true := by decide

set_option maxRecDepth 8000 in
theorem bad_window2 : ∀ q, q < 32 → ∀ m, m < 64 → 2 ≤ q → ¬(q = 2 ∧ m < 32) →
    _is_bad_window 1 (192 + q) (128 + m) = false := by decide

set_option maxRecDepth 8000 in
theorem bad_window3 : ∀ p, p < 16 → ∀ m, m < 64 → ¬(p = 0 ∧ m < 32) → ¬(p = 13 ∧ 32 ≤ m) →
    _is_bad_window 2 (224 + p) (128 + m) = false := by decide

set_option maxRecDepth 8000 in
theorem bad_window4 : ∀ p, p < 8 → ∀ m, m < 64 → ¬(p = 0 ∧ m < 16) →
    (p < 4 ∨ (p = 4 ∧ m < 16)) →
    _is_bad_window 3 (240 + p) (128 + m) = false := by decide

/-- Stepping _str_sanitize over a kept ASCII character. -/
theorem sanitize_keep1 (repl b : Nat) (rest : List Nat) (n : Nat)
    (hb1 : 32 ≤ b) (hb2 : b < 128) (hn : 1 ≤ n) :
    _str_sanitize repl (b :: rest) n =
      ((_str_sanitize repl rest (n - 1)).1, b :: (_str_sanitize repl rest (n - 1)).2) := by
  have hcb : _continuation_bytes b = 0 := cont_bytes_b0 b hb2
  have h1 : decide (b < 32) = false := decide_eq_false (by omega)
  have h2 : decide (_continuation_bytes b < 0) = false := by rw [hcb]; rfl
  have h3 : decide ((n : Int) ≤ _continuation_bytes b) = false := by
    rw [hcb]
    exact decide_eq_false (by omega)
  have h4 : _conts_valid (b :: rest) (_continuation_bytes b).toNat = true := by
    rw [hcb]
    rfl
  have h5 : _is_bad_window (_continuation_bytes b) b (rest.getD 0 0) = false := by
    rw [hcb]
    rfl
  rw [_str_sanitize.eq_5 repl n b rest
    (fun c1 r1 h _ => by rw [hcb] at h; simp at h)
    (fun c1 c2 r1 h _ => by rw [hcb] at h; simp at h)
    (fun c1 c2 c3 r1 h _ => by rw [hcb] at h; simp at h)]
  rw [if_neg (by simp only [Bool.or_eq_true, beq_iff_eq]; omega)]
  rw [if_neg (by rw [h1, h2, h3, h4, h5]; decide)]
  rw [if_pos (by rw [hcb]; decide)]

/-- Stepping _str_sanitize over a kept (shortest-form) 2-byte character. -/
theorem sanitize_keep2 (repl q m : Nat) (rest : List Nat) (n : Nat)
    (hq1 : 2 ≤ q) (hq2 : q ≤ 31) (hm : m < 64) (hns : ¬(q = 2 ∧ m < 32)) (hn : 2 ≤ n) :
    _str_sanitize repl ((192 + q) :: (128 + m) :: rest) n =
      ((_str_sanitize repl rest (n - 2)).1,
        (192 + q) :: (128 + m) :: (_str_sanitize repl rest (n - 2)).2) := by
  have hcb : _continuation_bytes (192 + q) = 1 :=
    cont_bytes_b1 _ (by omega) (by omega) (by omega)
  have hct : _is_continuation (128 + m) = true := is_cont_128 m hm
  have hbw : _is_bad_window 1 (192 + q) (128 + m) = false :=
    bad_window2 q (by omega) m hm hq1 hns
  have h1 : decide (192 + q < 32) = false := decide_eq_false (by omega)
  have h2 : decide (_continuation_bytes (192 + q) < 0) = false := by rw [hcb]; rfl
  have h3 : decide ((n : Int) ≤ _continuation_bytes (192 + q)) = false := by
    rw [hcb]
    exact decide_eq_false (by omega)
  have h4 : _conts_valid ((192 + q) :: (128 + m) :: rest)
      (_continuation_bytes (192 + q)).toNat = true := by
    rw [hcb]
    simp [_conts_valid, hct]
  have h5 : _is_bad_window (_continuation_bytes (192 + q)) (192 + q)
      (((128 + m) :: rest).getD 0 0) = false := by
    rw [hcb, List.getD_cons_zero, hbw]
  rw [_str_sanitize.eq_2 repl n (192 + q) (128 + m) rest (by rw [hcb]; rfl)]
  rw [if_neg (by simp only [Bool.or_eq_true, beq_iff_eq]; omega)]
  rw [if_neg (by rw [h1, h2, h3, h4, h5]; decide)]
  rw [if_neg (by rw [hcb]; decide)]

/-- Stepping _str_sanitize over a kept (valid, non-surrogate) 3-byte
character. -/
theorem sanitize_keep3 (repl p m1 m2 : Nat) (rest : List Nat) (n : Nat)
    (hp : p < 16) (hm1 : m1 < 64) (hm2 : m2 < 64)
    (hns : ¬(p = 0 ∧ m1 < 32)) (hsur : ¬(p = 13 ∧ 32 ≤ m1)) (hn : 3 ≤ n) :
    _str_sanitize repl ((224 + p) :: (128 + m1) :: (128 + m2) :: rest) n =
      ((_str_sanitize repl rest (n - 3)).1,
        (224 + p) :: (128 + m1) :: (128 + m2) :: (_str_sanitize repl rest (n - 3)).2) := by
  have hcb : _continuation_bytes (224 + p) = 2 :=
    cont_bytes_b2 _ (by omega) (by omega) (by omega)
  have hct1 : _is_continuation (128 + m1) = true := is_cont_128 m1 hm1
  have hct2 : _is_continuation (128 + m2) = true := is_cont_128 m2 hm2
  have hbw : _is_bad_window 2 (224 + p) (128 + m1) = false :=
    bad_window3 p hp m1 hm1 hns hsur
  have h1 : decide (224 + p < 32) = false := decide_eq_false (by omega)
  have h2 : decide (_continuation_bytes (224 + p) < 0) = false := by rw [hcb]; rfl
  have h3 : decide ((n : Int) ≤ _continuation_bytes (224 + p)) = false := by
    rw [hcb]
    exact decide_eq_false (by omega)
  have h4 : _conts_valid ((224 + p) :: (128 + m1) :: (128 + m2) :: rest)
      (_continuation_bytes (224 + p)).toNat = true := by
    rw [hcb]
    simp [_conts_valid, hct1, hct2]
  have h5 : _is_bad_window (_continuation_bytes (224 + p)) (224 + p)
      (((128 + m1) :: (128 + m2) :: rest).getD 0 0) = false := by
    rw [hcb, List.getD_cons_zero, hbw]
  rw [_str_sanitize.eq_3 repl n (224 + p) (128 + m1) (128 + m2) rest (by rw [hcb]; rfl)]
  rw [if_neg (by simp only [Bool.or_eq_true, beq_iff_eq]; omega)]
  rw [if_neg (by rw [h1, h2, h3, h4, h5]; decide)]
  rw [if_neg (by rw [hcb]; decide)]

/-- Stepping _str_sanitize over a kept (valid, in-range) 4-byte
character. -/
theorem sanitize_keep4 (repl p m1 m2 m3 : Nat) (rest : List Nat) (n : Nat)
    (hp : p < 8) (hm1 : m1 < 64) (hm2 : m2 < 64) (hm3 : m3 < 64)
    (hns : ¬(p = 0 ∧ m1 < 16)) (hrange : p < 4 ∨ (p = 4 ∧ m1 < 16)) (hn : 4 ≤ n) :
    _str_sanitize repl ((240 + p) :: (128 + m1) :: (128 + m2) :: (128 + m3) :: rest) n =
      ((_str_sanitize repl rest (n - 4)).1,
        (240 + p) :: (128 + m1) :: (128 + m2) :: (128 + m3) ::
          (_str_sanitize repl rest (n - 4)).2) := by
  have hcb : _continuation_bytes (240 + p) = 3 :=
    cont_bytes_b3 _ (by omega) (by omega) (by omega)
  have hct1 : _is_continuation (128 + m1) = true := is_cont_128 m1 hm1
  have hct2 : _is_continuation (128 + m2) = true := is_cont_128 m2 hm2
  have hct3 : _is_continuation (128 + m3) = true := is_cont_128 m3 hm3
  have hbw : _is_bad_window 3 (240 + p) (128 + m1) = false :=
    bad_window4 p hp m1 hm1 hns hrange
  have h1 : decide (240 + p < 32) = false := decide_eq_false (by omega)
  have h2 : decide (_continuation_bytes (240 + p) < 0) = false := by rw [hcb]; rfl
  have h3 : decide ((n : Int) ≤ _continuation_bytes (240 + p)) = false := by
    rw [hcb]
    exact decide_eq_false (by omega)
  have h4 : _conts_valid ((240 + p) :: (128 + m1) :: (128 + m2) :: (128 + m3) :: rest)
      (_continuation_bytes (240 + p)).toNat = true := by
    rw [hcb]
    simp [_conts_valid, hct1, hct2, hct3]
  have h5 : _is_bad_window (_continuation_bytes (240 + p)) (240 + p)
      (((128 + m1) :: (128 + m2) :: (128 + m3) :: rest).getD 0 0) = false := by
    rw [hcb, List.getD_cons_zero, hbw]
  rw [_str_sanitize.eq_4 repl n (240 + p) (128 + m1) (128 + m2) (128 + m3) rest
    (by rw [hcb]; rfl)]
  rw [if_neg (by simp only [Bool.or_eq_true, beq_iff_eq]; omega)]
  rw [if_neg (by rw [h1, h2, h3, h4, h5]; decide)]
  rw [if_neg (by rw [hcb]; decide)]

/-- Stepping _str_sanitize over a replaced byte: whenever the merged
replacement condition holds and the walk continues, one byte is replaced
by repl. -/
theorem sanitize_replace (repl b : Nat) (rest : List Nat) (n : Nat)
    (hn : 1 ≤ n) (hb : b ≠ 0)
    (hrep : (decide (b < 32) || decide (_continuation_bytes b < 0) ||
      decide ((n : Int) ≤ _continuation_bytes b) ||
      !_conts_valid (b :: rest) (_continuation_bytes b).toNat ||
      _is_bad_window (_continuation_bytes b) b (rest.getD 0 0)) = true) :
    _str_sanitize repl (b :: rest) n =
      ((_str_sanitize repl rest (n - 1)).1 + 1,
        repl :: (_str_sanitize repl rest (n - 1)).2) := by
  have hno : ¬((n == 0 || b == 0) = true) := by
    simp only [Bool.or_eq_true, beq_iff_eq]
    omega
  rcases hv : (_continuation_bytes b).toNat with _ | _ | _ | _ | k
  · rw [_str_sanitize.eq_5 repl n b rest
      (fun c1 r1 h _ => by rw [hv] at h; simp at h)
      (fun c1 c2 r1 h _ => by rw [hv] at h; simp at h)
      (fun c1 c2 c3 r1 h _ => by rw [hv] at h; simp at h)]
    rw [if_neg hno, if_pos hrep]
  · rcases rest with _ | ⟨c1, r1⟩
    · rw [_str_sanitize.eq_5 repl n b []
        (fun c1 r1 _ h => by simp at h)
        (fun c1 c2 r1 _ h => by simp at h)
        (fun c1 c2 c3 r1 _ h => by simp at h)]
      rw [if_neg hno, if_pos hrep]
    · rw [_str_sanitize.eq_2 repl n b c1 r1 hv]
      rw [if_neg hno, if_pos hrep]
  · rcases rest with _ | ⟨c1, r1⟩
    · rw [_str_sanitize.eq_5 repl n b []
        (fun c1 r1 _ h => by simp at h)
        (fun c1 c2 r1 _ h => by simp at h)
        (fun c1 c2 c3 r1 _ h => by simp at h)]
      rw [if_neg hno, if_pos hrep]
    · rcases r1 with _ | ⟨c2, r2⟩
      · rw [_str_sanitize.eq_5 repl n b [c1]
          (fun d1 s1 h _ => by rw [hv] at h; simp at h)
          (fun d1 d2 s1 _ h => by simp at h)
          (fun d1 d2 d3 s1 _ h => by simp at h)]
        rw [if_neg hno, if_pos hrep]
      · rw [_str_sanitize.eq_3 repl n b c1 c2 r2 hv]
        rw [if_neg hno, if_pos hrep]
  · rcases rest with _ | ⟨c1, r1⟩
    · rw [_str_sanitize.eq_5 repl n b []
        (fun c1 r1 _ h => by simp at h)
        (fun c1 c2 r1 _ h => by simp at h)
        (fun c1 c2 c3 r1 _ h => by simp at h)]
      rw [if_neg hno, if_pos hrep]
    · rcases r1 with _ | ⟨c2, r2⟩
      · rw [_str_sanitize.eq_5 repl n b [c1]
          (fun d1 s1 h _ => by rw [hv] at h; simp at h)
          (fun d1 d2 s1 _ h => by simp at h)
          (fun d1 d2 d3 s1 _ h => by simp at h)]
        rw [if_neg hno, if_pos hrep]
      · rcases r2 with _ | ⟨c3, r3⟩
        · rw [_str_sanitize.eq_5 repl n b [c1, c2]
            (fun d1 s1 h _ => by rw [hv] at h; simp at h)
            (fun d1 d2 s1 h _ => by rw [hv] at h; simp at h)
            (fun d1 d2 d3 s1 _ h => by simp at h)]
          rw [if_neg hno, if_pos hrep]
        · rw [_str_sanitize.eq_4 repl n b c1 c2 c3 r3 hv]
          rw [if_neg hno, if_pos hrep]
  · rw [_str_sanitize.eq_5 repl n b rest
      (fun c1 r1 h _ => by rw [hv] at h; simp at h)
      (fun c1 c2 r1 h _ => by rw [hv] at h; simp at h)
      (fun c1 c2 c3 r1 h _ => by rw [hv] at h; simp at h)]
    rw [if_neg hno, if_pos hrep]

/-- Stepping _str_sanitize over the canonical encoding of any valid scalar
that is neither a C0 control (< 0x20) nor a C1 control (0x80..0x9F):
the character is kept unchanged. -/
theorem sanitize_step (repl c : Nat) (rest : List Nat) (n : Nat)
    (hv : ValidScalar c) (hc0 : 32 ≤ c) (hc1 : ¬(128 ≤ c ∧ c < 160))
    (hn : (utf8Enc c).length ≤ n) :
    _str_sanitize repl (utf8Enc c ++ rest) n =
      ((_str_sanitize repl rest (n - (utf8Enc c).length)).1,
        utf8Enc c ++ (_str_sanitize repl rest (n - (utf8Enc c).length)).2) := by
  rw [validScalar_iff] at hv
  by_cases hA : c < 128
  · have henc : utf8Enc c = [c] := by
      unfold utf8Enc
      rw [if_pos hA]
    rw [henc] at hn ⊢
    simp only [List.length_singleton, List.singleton_append] at hn ⊢
    exact sanitize_keep1 repl c rest n hc0 hA hn
  by_cases hB : c < 2048
  · have henc : utf8Enc c = [192 + c / 64, 128 + c % 64] := by
      unfold utf8Enc
      rw [if_neg (by omega), if_pos hB]
    rw [henc] at hn ⊢
    simp only [List.length_cons, List.length_nil, List.cons_append, List.nil_append]
      at hn ⊢
    exact sanitize_keep2 repl (c / 64) (c % 64) rest n (by omega) (by omega) (by omega)
      (by omega) (by omega)
  by_cases hC : c < 65536
  · have henc : utf8Enc c = [224 + c / 4096, 128 + c / 64 % 64, 128 + c % 64] := by
      unfold utf8Enc
      rw [if_neg (by omega), if_neg (by omega), if_pos hC]
    rw [henc] at hn ⊢
    simp only [List.length_cons, List.length_nil, List.cons_append, List.nil_append]
      at hn ⊢
    exact sanitize_keep3 repl (c / 4096) (c / 64 % 64) (c % 64) rest n (by omega) (by omega)
      (by omega) (by omega) (by omega) (by omega)
  · have henc : utf8Enc c = [240 + c / 262144, 128 + c / 4096 % 64, 128 + c / 64 % 64,
        128 + c % 64] := by
      unfold utf8Enc
      rw [if_neg (by omega), if_neg (by omega), if_neg (by omega)]
    rw [henc] at hn ⊢
    simp only [List.length_cons, List.length_nil, List.cons_append, List.nil_append]
      at hn ⊢
    exact sanitize_keep4 repl (c / 262144) (c / 4096 % 64) (c / 64 % 64) (c % 64) rest n
      (by omega) (by omega) (by omega) (by omega) (by omega) (by omega) (by omega)

/-- _str_sanitize is the identity (with zero replacements) on well-formed
buffers whose scalars avoid the C0 and C1 control ranges, whenever the
count covers the whole buffer. -/
theorem sanitize_wf_id (repl : Nat) :
    ∀ N s n, s.length ≤ N → (∀ b ∈ s, b < 256) → wellFormed s = true →
      (∀ c ∈ scalars s, 32 ≤ c ∧ ¬(128 ≤ c ∧ c < 160)) →
      s.length ≤ n →
      _str_sanitize repl s n = (0, s) := by
  intro N
  induction N with
  | zero =>
    intro s n hsN h256 hwf hctrl hn
    have hs : s = [] := List.length_eq_zero.mp (by omega)
    subst hs
    rfl
  | succ M ih =>
    intro s n hsN h256 hwf hctrl hn
    by_cases hne : s = []
    · subst hne
      rfl
    obtain ⟨c, rest, hv, hdec, hdl, hwfr, hlt⟩ := wf_decomp s h256 hne hwf
    have hsc : scalars s = c :: scalars rest := scalars_of_cons s rest c hdl
    have hc := hctrl c (by rw [hsc]; exact List.mem_cons_self _ _)
    have h256r : ∀ b ∈ rest, b < 256 := fun b hb =>
      h256 b (by rw [hdec]; exact List.mem_append_right _ hb)
    have hlen : s.length = (utf8Enc c).length + rest.length := by
      rw [hdec]
      simp
    rw [hdec]
    rw [sanitize_step repl c rest n hv hc.1 hc.2 (by omega)]
    rw [ih rest (n - (utf8Enc c).length) (by omega) h256r hwfr
      (fun d hd => hctrl d (by rw [hsc]; exact List.mem_cons_of_mem _ hd)) (by omega)]

/-- C4 counterexample: the buffer [0x01] is well-formed in the sense of
the spec glossary (its single maximal subsequence decodes to the scalar
0x01 without error), yet str_sanitize replaces the byte and reports one
replacement instead of leaving the buffer unchanged. -/
theorem str_sanitize_wf_counterexample :
    wellFormed [1] = true ∧ str_sanitize [1] 1 0x3F = (1, [0x3F]) := by decide

/-- C4 (amended): str_sanitize performs zero replacements and leaves the
buffer byte-for-byte unchanged on every well-formed buffer whose decoded
scalars avoid the ranges the code deliberately replaces, namely the C0
controls (below 0x20) and the C1 controls (0x80..0x9F), whenever the
count argument covers the whole buffer. -/
theorem str_sanitize_wf_id (str : List Nat) (n repl : Nat)
    (h256 : ∀ b ∈ str, b < 256) (hwf : wellFormed str = true)
    (hctrl : ∀ c ∈ scalars str, 0x20 ≤ c ∧ ¬(0x80 ≤ c ∧ c < 0xA0))
    (hn : str.length ≤ n) :
    str_sanitize str n repl = (0, str) := by
  unfold str_sanitize
  exact sanitize_wf_id repl str.length str n (Nat.le_refl _) h256 hwf hctrl hn

/-- C4 witness: the amended theorem applied to the well-formed buffer
"a" followed by U+00E9 in UTF-8. -/
theorem str_sanitize_wf_id_witness :
    ((∀ b ∈ [0x61, 0xC3, 0xA9], b < 256) ∧ wellFormed [0x61, 0xC3, 0xA9] = true ∧
      (∀ c ∈ scalars [0x61, 0xC3, 0xA9], 0x20 ≤ c ∧ ¬(0x80 ≤ c ∧ c < 0xA0)) ∧
      ([0x61, 0xC3, 0xA9] : List Nat).length ≤ 3) ∧
    str_sanitize [0x61, 0xC3, 0xA9] 3 0x3F = (0, [0x61, 0xC3, 0xA9]) :=
  ⟨⟨by decide, by decide, by decide, by decide⟩,
    str_sanitize_wf_id [0x61, 0xC3, 0xA9] 3 0x3F (by decide) (by decide) (by decide)
      (by decide)⟩

set_option maxRecDepth 8000 in
theorem bad_window2_extract : ∀ q, q < 32 → ∀ m, m < 64 →
    _is_bad_window 1 (192 + q) (128 + m) = false → 2 ≤ q ∧ ¬(q = 2 ∧ m < 32) := by decide

set_option maxRecDepth 8000 in
theorem bad_window3_extract : ∀ p, p < 16 → ∀ m, m < 64 →
    _is_bad_window 2 (224 + p) (128 + m) = false →
    ¬(p = 0 ∧ m < 32) ∧ ¬(p = 13 ∧ 32 ≤ m) := by decide

set_option maxRecDepth 8000 in
theorem bad_window4_extract : ∀ p, p < 8 → ∀ m, m < 64 →
    _is_bad_window 3 (240 + p) (128 + m) = false →
    ¬(p = 0 ∧ m < 16) ∧ (p < 4 ∨ (p = 4 ∧ m < 16)) := by decide

set_option maxRecDepth 8000 in
theorem is_cont_range : ∀ b, b < 256 → _is_continuation b = true → 128 ≤ b ∧ b ≤ 191 := by
  decide

/-- One step of _str_sanitize over a NUL-terminated buffer with a nonempty
NUL-free content prefix: the output starts with the canonical encoding of
some printable valid scalar and continues with the sanitization of the
k-byte-shorter content. -/
theorem sanitize_cstr_step (l junk : List Nat) (n : Nat) (hne : l ≠ [])
    (h256 : ∀ b ∈ l, b < 256) (h0 : ∀ b ∈ l, b ≠ 0) (hn : l.length < n) :
    ∃ k c, 1 ≤ k ∧ k ≤ l.length ∧ ValidScalar c ∧ 32 ≤ c ∧ (utf8Enc c).length = k ∧
      (_str_sanitize 63 (l ++ 0 :: junk) n).2 =
        utf8Enc c ++ (_str_sanitize 63 (l.drop k ++ 0 :: junk) (n - k)).2 := by
  rcases l with _ | ⟨b, l1⟩
  · exact absurd rfl hne
  have hb256 : b < 256 := h256 b (List.mem_cons_self _ _)
  have hb0 : b ≠ 0 := h0 b (List.mem_cons_self _ _)
  simp only [List.cons_append]
  simp only [List.length_cons] at hn
  by_cases hrep : (decide (b < 32) || decide (_continuation_bytes b < 0) ||
      decide ((n : Int) ≤ _continuation_bytes b) ||
      !_conts_valid (b :: (l1 ++ 0 :: junk)) (_continuation_bytes b).toNat ||
      _is_bad_window (_continuation_bytes b) b ((l1 ++ 0 :: junk).getD 0 0)) = true
  · refine ⟨1, 63, by omega, by simp, ⟨by omega, by omega⟩, by omega, rfl, ?_⟩
    rw [sanitize_replace 63 b (l1 ++ 0 :: junk) n (by omega) hb0 hrep]
    rfl
  have hb32 : ¬(b < 32) := fun h => hrep (by rw [decide_eq_true h]; simp)
  have hcbnn : ¬(_continuation_bytes b < 0) := fun h => hrep (by rw [decide_eq_true h]; simp)
  have hcv : _conts_valid (b :: (l1 ++ 0 :: junk)) (_continuation_bytes b).toNat = true := by
    by_contra h
    rw [Bool.not_eq_true] at h
    exact hrep (by rw [h]; simp)
  have hbw : _is_bad_window (_continuation_bytes b) b ((l1 ++ 0 :: junk).getD 0 0)
      = false := by
    cases hx : _is_bad_window (_continuation_bytes b) b ((l1 ++ 0 :: junk).getD 0 0)
    · rfl
    · exact (hrep (by rw [hx]; simp)).elim
  by_cases hA : b < 128
  · -- kept ASCII byte
    refine ⟨1, b, by omega, by simp, ⟨by omega, by omega⟩, by omega, ?_, ?_⟩
    · unfold utf8Enc
      rw [if_pos hA]
      rfl
    · rw [sanitize_keep1 63 b (l1 ++ 0 :: junk) n (by omega) hA (by omega)]
      have henc : utf8Enc b = [b] := by
        unfold utf8Enc
        rw [if_pos hA]
      rw [henc]
      rfl
  by_cases h2r : 192 ≤ b ∧ b ≤ 223
  · -- kept 2-byte window
    have hcb : _continuation_bytes b = 1 := cont_bytes_b1 b hb256 h2r.1 h2r.2
    rw [hcb] at hcv hbw
    rcases l1 with _ | ⟨b1, l2⟩
    · exfalso
      simp [_conts_valid, _is_continuation] at hcv
    have hb1m : b1 < 256 := h256 b1 (by simp)
    simp only [List.cons_append] at hcv hbw ⊢
    simp [_conts_valid, Int.toNat_one, List.getD_cons_succ, List.getD_cons_zero,
      Bool.true_and] at hcv
    simp only [List.getD_cons_zero] at hbw
    have hb1r := is_cont_range b1 hb1m hcv
    have hq := bad_window2_extract (b - 192) (by omega) (b1 - 128) (by omega) (by
      rw [show 192 + (b - 192) = b from by omega, show 128 + (b1 - 128) = b1 from by omega]
      exact hbw)
    have hkeep := sanitize_keep2 63 (b - 192) (b1 - 128) (l2 ++ 0 :: junk) n
      (by omega) (by omega) (by omega) (by omega) (by omega)
    rw [show 192 + (b - 192) = b from by omega, show 128 + (b1 - 128) = b1 from by omega]
      at hkeep
    refine ⟨2, (b - 192) * 64 + (b1 - 128), by omega, by simp, ⟨by omega, by omega⟩,
      by omega, ?_, ?_⟩
    · unfold utf8Enc
      rw [if_neg (by omega), if_pos (by omega)]
      rfl
    · rw [hkeep]
      have henc : utf8Enc ((b - 192) * 64 + (b1 - 128)) = [b, b1] := by
        unfold utf8Enc
        rw [if_neg (by omega), if_pos (by omega)]
        have e1 : 192 + ((b - 192) * 64 + (b1 - 128)) / 64 = b := by omega
        have e2 : 128 + ((b - 192) * 64 + (b1 - 128)) % 64 = b1 := by omega
        rw [e1, e2]
      rw [henc]
      rfl
  by_cases h3r : 224 ≤ b ∧ b ≤ 239
  · -- kept 3-byte window
    have hcb : _continuation_bytes b = 2 := cont_bytes_b2 b hb256 h3r.1 h3r.2
    rw [hcb] at hcv hbw
    rcases l1 with _ | ⟨b1, l2⟩
    · exfalso
      simp [_conts_valid, _is_continuation] at hcv
    rcases l2 with _ | ⟨b2, l3⟩
    · exfalso
      simp [_conts_valid, _is_continuation] at hcv
    have hb1m : b1 < 256 := h256 b1 (by simp)
    have hb2m : b2 < 256 := h256 b2 (by simp)
    simp only [List.length_cons] at hn
    simp only [List.cons_append] at hcv hbw ⊢
    simp [_conts_valid, Int.toNat_ofNat, List.getD_cons_succ, List.getD_cons_zero,
      Bool.true_and, Bool.and_eq_true] at hcv
    simp only [List.getD_cons_zero] at hbw
    obtain ⟨hcv1, hcv2⟩ := hcv
    have hb1r := is_cont_range b1 hb1m (by
      simpa using hcv1)
    have hb2r := is_cont_range b2 hb2m (by
      simpa using hcv2)
    have hq := bad_window3_extract (b - 224) (by omega) (b1 - 128) (by omega) (by
      rw [show 224 + (b - 224) = b from by omega, show 128 + (b1 - 128) = b1 from by omega]
      exact hbw)
    have hkeep := sanitize_keep3 63 (b - 224) (b1 - 128) (b2 - 128) (l3 ++ 0 :: junk) n
      (by omega) (by omega) (by omega) (by omega) (by omega) (by omega)
    rw [show 224 + (b - 224) = b from by omega, show 128 + (b1 - 128) = b1 from by omega,
      show 128 + (b2 - 128) = b2 from by omega] at hkeep
    refine ⟨3, (b - 224) * 4096 + (b1 - 128) * 64 + (b2 - 128), by omega, by simp,
      ⟨by omega, by omega⟩, by omega, ?_, ?_⟩
    · unfold utf8Enc
      rw [if_neg (by omega), if_neg (by omega), if_pos (by omega)]
      rfl
    · rw [hkeep]
      have henc : utf8Enc ((b - 224) * 4096 + (b1 - 128) * 64 + (b2 - 128))
          = [b, b1, b2] := by
        unfold utf8Enc
        rw [if_neg (by omega), if_neg (by omega), if_pos (by omega)]
        have e1 : 224 + ((b - 224) * 4096 + (b1 - 128) * 64 + (b2 - 128)) / 4096 = b := by
          omega
        have e2 : 128 + ((b - 224) * 4096 + (b1 - 128) * 64 + (b2 - 128)) / 64 % 64
            = b1 := by omega
        have e3 : 128 + ((b - 224) * 4096 + (b1 - 128) * 64 + (b2 - 128)) % 64 = b2 := by
          omega
        rw [e1, e2, e3]
      rw [henc]
      rfl
  by_cases h4r : 240 ≤ b ∧ b ≤ 247
  · -- kept 4-byte window
    have hcb : _continuation_bytes b = 3 := cont_bytes_b3 b hb256 h4r.1 h4r.2
    rw [hcb] at hcv hbw
    rcases l1 with _ | ⟨b1, l2⟩
    · exfalso
      simp [_conts_valid, _is_continuation] at hcv
    rcases l2 with _ | ⟨b2, l3⟩
    · exfalso
      simp [_conts_valid, _is_continuation] at hcv
    rcases l3 with _ | ⟨b3, l4⟩
    · exfalso
      simp [_conts_valid, _is_continuation] at hcv
    have hb1m : b1 < 256 := h256 b1 (by simp)
    have hb2m : b2 < 256 := h256 b2 (by simp)
    have hb3m : b3 < 256 := h256 b3 (by simp)
    simp only [List.length_cons] at hn
    simp only [List.cons_append] at hcv hbw ⊢
    simp [_conts_valid, Int.toNat_ofNat, List.getD_cons_succ, List.getD_cons_zero,
      Bool.true_and, Bool.and_eq_true] at hcv
    simp only [List.getD_cons_zero] at hbw
    obtain ⟨⟨hcv1, hcv2⟩, hcv3⟩ := hcv
    have hb1r := is_cont_range b1 hb1m (by simpa using hcv1)
    have hb2r := is_cont_range b2 hb2m (by simpa using hcv2)
    have hb3r := is_cont_range b3 hb3m (by simpa using hcv3)
    have hq := bad_window4_extract (b - 240) (by omega) (b1 - 128) (by omega) (by
      rw [show 240 + (b - 240) = b from by omega, show 128 + (b1 - 128) = b1 from by omega]
      exact hbw)
    have hkeep := sanitize_keep4 63 (b - 240) (b1 - 128) (b2 - 128) (b3 - 128)
      (l4 ++ 0 :: junk) n (by omega) (by omega) (by omega) (by omega) (by omega)
      (by omega) (by omega)
    rw [show 240 + (b - 240) = b from by omega, show 128 + (b1 - 128) = b1 from by omega,
      show 128 + (b2 - 128) = b2 from by omega, show 128 + (b3 - 128) = b3 from by omega]
      at hkeep
    refine ⟨4, (b - 240) * 262144 + (b1 - 128) * 4096 + (b2 - 128) * 64 + (b3 - 128),
      by omega, by simp, ⟨by omega, by omega⟩, by omega, ?_, ?_⟩
    · unfold utf8Enc
      rw [if_neg (by omega), if_neg (by omega), if_neg (by omega)]
      rfl
    · rw [hkeep]
      have henc : utf8Enc ((b - 240) * 262144 + (b1 - 128) * 4096 + (b2 - 128) * 64 +
          (b3 - 128)) = [b, b1, b2, b3] := by
        unfold utf8Enc
        rw [if_neg (by omega), if_neg (by omega), if_neg (by omega)]
        have e1 : 240 + ((b - 240) * 262144 + (b1 - 128) * 4096 + (b2 - 128) * 64 +
            (b3 - 128)) / 262144 = b := by omega
        have e2 : 128 + ((b - 240) * 262144 + (b1 - 128) * 4096 + (b2 - 128) * 64 +
            (b3 - 128)) / 4096 % 64 = b1 := by omega
        have e3 : 128 + ((b - 240) * 262144 + (b1 - 128) * 4096 + (b2 - 128) * 64 +
            (b3 - 128)) / 64 % 64 = b2 := by omega
        have e4 : 128 + ((b - 240) * 262144 + (b1 - 128) * 4096 + (b2 - 128) * 64 +
            (b3 - 128)) % 64 = b3 := by omega
        rw [e1, e2, e3, e4]
      rw [henc]
      rfl
  · -- remaining bytes classify negatively, contradicting the passed check
    exfalso
    have : _continuation_bytes b = -1 := cont_bytes_bneg b hb256 (by omega)
    rw [this] at hcbnn
    exact hcbnn (by norm_num)


/-- The canonical encoding of a scalar at or above 0x20 contains no NUL
byte. -/
theorem utf8Enc_nonzero (c : Nat) (hc : 32 ≤ c) : ∀ b ∈ utf8Enc c, b ≠ 0 := by
  unfold utf8Enc
  split_ifs <;> intro b hb <;>
    simp only [List.mem_cons, List.not_mem_nil, or_false] at hb <;> omega

/-- Sanitize stops at a NUL byte, leaving everything untouched. -/
theorem sanitize_nul_head (junk : List Nat) (n : Nat) :
    _str_sanitize 63 (0 :: junk) n = (0, 0 :: junk) := by
  rw [_str_sanitize.eq_5 63 n 0 junk
    (fun c1 r1 h _ => by rw [cont_bytes_b0 0 (by omega)] at h; simp at h)
    (fun c1 c2 r1 h _ => by rw [cont_bytes_b0 0 (by omega)] at h; simp at h)
    (fun c1 c2 c3 r1 h _ => by rw [cont_bytes_b0 0 (by omega)] at h; simp at h)]
  rw [if_pos (by simp)]

/-- Sanitizing a NUL-terminated buffer (U_SPECIAL replacement byte, count
past the content) keeps the terminator in place and makes the content
well-formed: every kept byte run and every replacement byte is the
canonical encoding of a valid scalar. -/
theorem sanitize_cstr_wf :
    ∀ N (l junk : List Nat) n, l.length ≤ N → (∀ b ∈ l, b < 256) → (∀ b ∈ l, b ≠ 0) →
      l.length < n →
      ∃ l2, (_str_sanitize 63 (l ++ 0 :: junk) n).2 = l2 ++ 0 :: junk ∧
        l2.length = l.length ∧ (∀ b ∈ l2, b ≠ 0) ∧ wellFormed l2 = true := by
  intro N
  induction N with
  | zero =>
    intro l junk n hN h256 h0 hn
    have hl : l = [] := List.length_eq_zero.mp (by omega)
    subst hl
    refine ⟨[], ?_, rfl, by simp, by decide⟩
    simp only [List.nil_append, sanitize_nul_head]
  | succ M ih =>
    intro l junk n hN h256 h0 hn
    by_cases hne : l = []
    · subst hne
      refine ⟨[], ?_, rfl, by simp, by decide⟩
      simp only [List.nil_append, sanitize_nul_head]
    obtain ⟨k, c, hk1, hk2, hvc, hc32, hlenc, heq⟩ :=
      sanitize_cstr_step l junk n hne h256 h0 hn
    obtain ⟨l2, hl2eq, hl2len, hl2nz, hl2wf⟩ := ih (l.drop k) junk (n - k)
      (by have := List.length_drop k l; omega)
      (fun b hb => h256 b (List.drop_subset _ _ hb))
      (fun b hb => h0 b (List.drop_subset _ _ hb))
      (by have := List.length_drop k l; omega)
    refine ⟨utf8Enc c ++ l2, ?_, ?_, ?_, ?_⟩
    · rw [heq, hl2eq, List.append_assoc]
    · rw [List.length_append, hl2len, List.length_drop, hlenc]
      omega
    · intro b hb
      rcases List.mem_append.mp hb with h | h
      · exact utf8Enc_nonzero c hc32 b h
      · exact hl2nz b h
    · exact wf_cons_enc c l2 hvc.1 hvc.2 hl2wf

/-! ### The bounded copy loop -/

theorem set0_cons (d : List Nat) (hd : d ≠ []) : d.set 0 0 = 0 :: d.drop 1 := by
  rcases d with _ | ⟨x, t⟩
  · exact absurd rfl hd
  · rfl

theorem cpyn_loop_zero (dest src : List Nat) : _cpyn_loop dest src 0 = dest.set 0 0 := by
  rcases src with _ | ⟨b, s⟩ <;> simp [_cpyn_loop]

/-- The copy loop writes at most budget non-NUL bytes taken from the front
of src, then a NUL terminator, and leaves the remaining destination bytes
in place. -/
theorem cpyn_shape : ∀ (budget : Nat) (dest src : List Nat), budget < dest.length →
    ∃ content junk, _cpyn_loop dest src budget = content ++ 0 :: junk ∧
      content.length ≤ budget ∧ (∀ b ∈ content, b ≠ 0 ∧ b ∈ src) := by
  intro budget
  induction budget with
  | zero =>
    intro dest src hlen
    have hd : dest ≠ [] := by
      intro h
      rw [h] at hlen
      simp at hlen
    refine ⟨[], dest.drop 1, ?_, by simp, by simp⟩
    rw [cpyn_loop_zero, set0_cons _ hd]
    rfl
  | succ g ihb =>
    intro dest src hlen
    have hd : dest ≠ [] := by
      intro h
      rw [h] at hlen
      simp at hlen
    rcases src with _ | ⟨b, s⟩
    · refine ⟨[], dest.drop 1, ?_, by simp, by simp⟩
      rw [show _cpyn_loop dest [] (g + 1) = dest.set 0 0 from by simp [_cpyn_loop],
        set0_cons _ hd]
      rfl
    · by_cases hb : b = 0
      · subst hb
        rcases dest with _ | ⟨x, dt⟩
        · exact absurd rfl hd
        refine ⟨[], (x :: dt).drop 1, ?_, by simp, by simp⟩
        rw [show _cpyn_loop (x :: dt) (0 :: s) (g + 1) = (x :: dt).set 0 0 from by
            simp [_cpyn_loop],
          set0_cons _ hd]
        rfl
      · rcases dest with _ | ⟨x, dt⟩
        · exact absurd rfl hd
        have hstep : _cpyn_loop (x :: dt) (b :: s) (g + 1) = b :: _cpyn_loop dt s g := by
          simp only [_cpyn_loop]
          rw [if_neg (by simp only [beq_iff_eq]; exact hb)]
        obtain ⟨content, junk, heq, hlen2, hmem⟩ := ihb dt s (by
          simp only [List.length_cons] at hlen
          omega)
        refine ⟨b :: content, junk, ?_, ?_, ?_⟩
        · rw [hstep, heq]
          rfl
        · simp only [List.length_cons]
          omega
        · intro d hd2
          rcases List.mem_cons.mp hd2 with h | h
          · subst h
            exact ⟨hb, List.mem_cons_self _ _⟩
          · obtain ⟨hz, hm⟩ := hmem d h
            exact ⟨hz, List.mem_cons_of_mem _ hm⟩

/-- _str_cpyn with a real bounded size: the destination holds a NUL-free
prefix of src of length below size, then a NUL terminator. -/
theorem str_cpyn_shape (dest src : List Nat) (size : Nat) (h1 : 1 ≤ size)
    (h2 : size ≤ dest.length) (h3 : size ≠ STR_NO_LIMIT) :
    ∃ content junk, _str_cpyn dest size src = content ++ 0 :: junk ∧
      content.length < size ∧ (∀ b ∈ content, b ≠ 0 ∧ b ∈ src) := by
  unfold _str_cpyn
  rw [if_neg (by simp only [beq_iff_eq]; omega),
    if_neg (by simp only [beq_iff_eq]; exact h3)]
  obtain ⟨content, junk, heq, hle, hmem⟩ := cpyn_shape (size - 1) dest src (by omega)
  exact ⟨content, junk, heq, by omega, hmem⟩

theorem getD_append_at (l1 l2 : List Nat) (x : Nat) :
    (l1 ++ x :: l2).getD l1.length 0 = x := by
  induction l1 with
  | nil => rfl
  | cons a t ihl =>
    simp only [List.cons_append, List.length_cons, List.getD_cons_succ]
    exact ihl

/-- C5: for every destination of capacity size with 1 <= size (the
STR_NO_LIMIT sentinel requests the unbounded copy and is excluded), and
every source of bytes, str_cpy leaves a NUL terminator at an index below
size, every byte before it is non-NUL, and the contents before the
terminator are a well-formed UTF-8 string. -/
theorem str_cpy_terminated_wf (dest src : List Nat) (size : Nat)
    (h1 : 1 ≤ size) (h2 : size ≤ dest.length) (h3 : size ≠ STR_NO_LIMIT)
    (hsrc : ∀ b ∈ src, b < 256) :
    ∃ i, i < size ∧ (str_cpy dest size src).getD i 0 = 0 ∧
      (∀ j, j < i → (str_cpy dest size src).getD j 0 ≠ 0) ∧
      wellFormed ((str_cpy dest size src).take i) = true := by
  obtain ⟨content, junk, heq, hlt, hmem⟩ := str_cpyn_shape dest src size h1 h2 h3
  unfold str_cpy
  rw [heq]
  obtain ⟨l2, hl2eq, hl2len, hl2nz, hl2wf⟩ := sanitize_cstr_wf content.length content junk
    size (Nat.le_refl _) (fun b hb => hsrc b (hmem b hb).2) (fun b hb => (hmem b hb).1) hlt
  rw [show U_SPECIAL = 63 from rfl, hl2eq]
  refine ⟨l2.length, by omega, getD_append_at _ _ _, ?_, ?_⟩
  · intro j hj
    rw [getD_append_left _ _ _ (by omega)]
    have hjlt : j < l2.length := hj
    rw [List.getD_eq_getElem?_getD, List.getElem?_eq_getElem hjlt]
    exact hl2nz _ (List.getElem_mem hjlt)
  · rw [List.take_left]
    exact hl2wf

/-- C5 witness: a four-byte destination, capacity 3, and a source whose
second character must be replaced by the sanitizer. -/
theorem str_cpy_terminated_wf_witness :
    ((1 : Nat) ≤ 3 ∧ (3 : Nat) ≤ ([9, 9, 9, 9] : List Nat).length ∧
      (3 : Nat) ≠ STR_NO_LIMIT ∧ (∀ b ∈ [0x61, 0xC3, 0xA9], b < 256)) ∧
    (∃ i, i < 3 ∧ (str_cpy [9, 9, 9, 9] 3 [0x61, 0xC3, 0xA9]).getD i 0 = 0 ∧
      (∀ j, j < i → (str_cpy [9, 9, 9, 9] 3 [0x61, 0xC3, 0xA9]).getD j 0 ≠ 0) ∧
      wellFormed ((str_cpy [9, 9, 9, 9] 3 [0x61, 0xC3, 0xA9]).take i) = true) :=
  ⟨⟨by decide, by decide, by decide, by decide⟩,
    str_cpy_terminated_wf [9, 9, 9, 9] [0x61, 0xC3, 0xA9] 3 (by decide) (by decide)
      (by decide) (by decide)⟩


/-- C3: the byte-wise comparison of str_cmp does NOT realise the
lexicographic order of the decoded scalar sequences on well-formed
UTF-8 strings: str_cmp compares plain (signed) chars, so the non-ASCII
string "\xC3\xA9" (the two well-formed bytes of U+00E9) compares below
the ASCII string "b" even though its decoded scalar sequence compares
above. -/
theorem str_cmp_signed_divergence :
    wellFormed [0xC3, 0xA9] = true ∧ wellFormed [0x62] = true ∧
    str_cmp [0xC3, 0xA9] [0x62] = -1 ∧
    scalarCmp (scalars [0xC3, 0xA9]) (scalars [0x62]) = 1 := by decide


/-- C7 witness: the atomicity properties evaluated at concrete calls. -/
theorem chr_encode_atomic_witness :
    (chr_encode 0xE9 [9, 9] 0 1).2.1 = [9, 9] ∧
    (chr_encode 0xE9 [9, 9, 9] 0 3).2.2 = 0 + 2 := by
  constructor
  · exact ((chr_encode_atomic 0xE9 [9, 9] 0 1).1 (by decide)).1
  · rcases (chr_encode_atomic 0xE9 [9, 9, 9] 0 3).2 (by decide) with ⟨k, _, _, hk, _⟩
    rw [hk]
    norm_num
    have : (chr_encode 0xE9 [9, 9, 9] 0 3).2.2 = 2 := by decide
    omega
